import Mathlib

/-!
Verification of the tanstack-db-surrealdb adapter core against its
specification.  The definitions below are shallow embeddings of the
TypeScript source: `src/id.ts` (identifier canonicalization and interning),
`src/index.ts` (diff-and-emit, live-event handlers, AAD derivation, the sync
start path, the insert schema) and the subset-to-SQL translator
(`buildSubsetQuery`).  Strings are represented as `List Char`; JavaScript
Maps as association lists with insertion-order semantics.
-/

namespace TDB

/-! ## Basic string helpers (JavaScript string semantics on `List Char`) -/

/-- JavaScript whitespace test, restricted to the ASCII whitespace that the
repository exercises. -/
def isWs (c : Char) : Bool := c.isWhitespace

/-- `String.prototype.trim`: drop whitespace from both ends. -/
def jsTrim (l : List Char) : List Char :=
  ((l.dropWhile isWs).reverse.dropWhile isWs).reverse

def isQuoteChar (c : Char) : Bool :=
  c = '\'' || c = '"' || c = Char.ofNat 96

/-- `stripOuterQuotes` from `src/id.ts`: trim, then remove one layer of
matching single, double or backtick quotes. -/
def stripOuterQuotes (v : List Char) : List Char :=
  let t := jsTrim v
  match t.head?, t.getLast? with
  | some a, some b =>
      if 2 ≤ t.length ∧ a = b ∧ isQuoteChar a then (t.drop 1).dropLast else t
  | _, _ => t

/-- `stripAngleBrackets` from `src/id.ts`: trim, then remove one layer of
ASCII or Unicode angle brackets, trimming the inside. -/
def stripAngleBrackets (v : List Char) : List Char :=
  let t := jsTrim v
  match t.head?, t.getLast? with
  | some a, some b =>
      if 2 ≤ t.length ∧ ((a = '⟨' ∧ b = '⟩') ∨ (a = '<' ∧ b = '>')) then
        jsTrim ((t.drop 1).dropLast)
      else t
  | _, _ => t

/-- Index of the first `:` in the string (`String.prototype.indexOf`). -/
def firstColonIdx : List Char → Option Nat
  | [] => none
  | c :: rest =>
      if c = ':' then some 0 else (firstColonIdx rest).map (· + 1)

/-- `toRecordIdString` from `src/id.ts` (string input). -/
def toRecordIdString (rid : List Char) : List Char :=
  let raw := stripOuterQuotes rid
  let trimmed := jsTrim (stripOuterQuotes raw)
  match firstColonIdx trimmed with
  | none => trimmed
  | some idx =>
      if idx = 0 ∨ trimmed.length - 1 ≤ idx then trimmed
      else
        let table := jsTrim (trimmed.take idx)
        let key := stripOuterQuotes (stripAngleBrackets
          (stripOuterQuotes (jsTrim (trimmed.drop (idx + 1)))))
        if table = [] ∨ key = [] then trimmed
        else table ++ ':' :: key

/-- `isRecordIdString` from `src/id.ts`. -/
def isRecordIdString (v : List Char) : Bool :=
  match firstColonIdx v with
  | none => false
  | some idx => 0 < idx ∧ idx < v.length - 1

def isTableHeadChar (c : Char) : Bool := c.isAlpha || c = '_'

def isTableTailChar (c : Char) : Bool := c.isAlphanum || c = '_' || c = '-'

/-- `looksLikeTableName` from `src/id.ts`: the regex
`^[A-Za-z_][A-Za-z0-9_-]*$`. -/
def looksLikeTableName : List Char → Bool
  | [] => false
  | c :: rest => isTableHeadChar c && rest.all isTableTailChar

/-- `toCanonicalRecordIdString` from `src/id.ts`. -/
def toCanonicalRecordIdString (v : List Char) : Option (List Char) :=
  let normalized := toRecordIdString v
  if ¬ isRecordIdString normalized then none
  else
    match firstColonIdx normalized with
    | none => none
    | some idx =>
        let table := stripOuterQuotes (jsTrim (normalized.take idx))
        let key := jsTrim (normalized.drop (idx + 1))
        if table = [] ∨ key = [] ∨ ¬ looksLikeTableName table then none
        else some (table ++ ':' :: key)

/-- Convenience: canonicalization applied to a string literal. -/
def canonChars (s : String) : Option (List Char) :=
  toCanonicalRecordIdString s.toList

/-! ## Record-id input variants and `normalizeRecordIdLikeValue` -/

/-- The documented record-id input variants handled by
`normalizeRecordIdLikeValue` / `asCanonicalRecordIdString` in `src/id.ts`:
bare, quoted or bracketed strings; cross-runtime `\x7btable, id\x7d` objects
with a custom `toString` (modelled as yielding `table ++ ":" ++ id`); and
single-key `\x7bid: variant\x7d` wrapper objects. -/
inductive RecordIdInput where
  | str (s : List Char)
  | obj (table : List Char) (idv : List Char)
  | wrap (inner : RecordIdInput)
deriving DecidableEq

/-- `isCrossRuntimeRecordIdObject` in `src/id.ts`, restricted to objects
with a string `table` field and a primitive `id` field rendered as a
string. -/
def isCrossRuntimeOk (table : List Char) : Bool :=
  looksLikeTableName (jsTrim (stripOuterQuotes table))

/-- `asCanonicalRecordIdFromCrossRuntimeObject` in `src/id.ts`. -/
def crossRuntimeCanonical (table idv : List Char) : Option (List Char) :=
  if ¬ isCrossRuntimeOk table then none
  else
    let t := jsTrim (stripOuterQuotes table)
    if t ≠ [] ∧ idv ≠ [] then toCanonicalRecordIdString (t ++ ':' :: idv)
    else toCanonicalRecordIdString (table ++ ':' :: idv)

/-- `asCanonicalRecordIdString` in `src/id.ts` on the documented input
variants: strings go through `toCanonicalRecordIdString`; cross-runtime
objects through `asCanonicalRecordIdFromCrossRuntimeObject`; a single-key
`id` wrapper is unwrapped and retried. -/
def asCanonical : RecordIdInput → Option (List Char)
  | .str s => toCanonicalRecordIdString s
  | .obj t i => crossRuntimeCanonical t i
  | .wrap inner => asCanonical inner

/-- The canonical string computed by `normalizeRecordIdLikeValue` in
`src/id.ts` for each input variant.  For string inputs the function first
strips one layer of outer quotes and falls back to the merely trimmed
string; object inputs go through `asCanonicalRecordIdString`. -/
def canonicalOf : RecordIdInput → Option (List Char)
  | .str s =>
      let trimmed := jsTrim s
      let unquoted := stripOuterQuotes trimmed
      (match toCanonicalRecordIdString unquoted with
       | some c => some c
       | none =>
           if unquoted = trimmed then none
           else toCanonicalRecordIdString trimmed)
  | .obj t i => asCanonical (.obj t i)
  | .wrap inner => asCanonical (.wrap inner)

/-! ## The process-wide interning pool (`recordIdIdentityPool`)

`internRecordIdIdentity` looks the canonical string up in the pool and,
only when absent, stores a value for it (the preferred input object, or a
freshly constructed native record id).  Pool entries are never overwritten
by `normalizeRecordIdLikeValue` / `internRecordIdIdentity`, so distinct
canonical strings are always bound to distinct references; we model
references as `Nat` tokens drawn from an allocator, a fresh token standing
for a JavaScript object that is not reference-equal to any value
previously returned. -/

def poolLookup : List (List Char × Nat) → List Char → Option Nat
  | [], _ => none
  | (k, r) :: rest, c => if k = c then some r else poolLookup rest c

structure InternSt where
  pool : List (List Char × Nat)
  next : Nat
deriving DecidableEq

def initSt : InternSt := ⟨[], 0⟩

/-- `internRecordIdIdentity` in `src/id.ts`: cached reference when present,
otherwise intern a fresh reference for the canonical string. -/
def internStep (st : InternSt) (c : List Char) : InternSt × Nat :=
  match poolLookup st.pool c with
  | some r => (st, r)
  | none => (⟨st.pool ++ [(c, st.next)], st.next + 1⟩, st.next)

/-- One `normalizeRecordIdLikeValue` call: unrecognized inputs are returned
unchanged (no interned reference), recognized inputs are interned by
canonical string. -/
def normStep (st : InternSt) (i : RecordIdInput) : InternSt × Option Nat :=
  match canonicalOf i with
  | none => (st, none)
  | some c => ((internStep st c).1, some (internStep st c).2)

/-- Run a sequence of `normalize` calls, returning the final pool state and
the reference (if any) returned by each call. -/
def runTrace : InternSt → List RecordIdInput → InternSt × List (Option Nat)
  | st, [] => (st, [])
  | st, i :: rest =>
      ((runTrace (normStep st i).1 rest).1,
       (normStep st i).2 :: (runTrace (normStep st i).1 rest).2)

/-- Well-formedness of the interning pool: every stored reference is below
the allocator counter, and no two entries share a reference. -/
def PoolWF (st : InternSt) : Prop :=
  (∀ e ∈ st.pool, e.2 < st.next) ∧ (st.pool.map Prod.snd).Nodup

theorem poolLookup_append (p q : List (List Char × Nat)) (c : List Char) :
    poolLookup (p ++ q) c =
      match poolLookup p c with
      | some r => some r
      | none => poolLookup q c := by
  induction p with
  | nil => simp [poolLookup]
  | cons e rest ih =>
      obtain ⟨k, r⟩ := e
      by_cases h : k = c <;> simp [poolLookup, h, ih]

theorem poolLookup_mem {p : List (List Char × Nat)} {c : List Char} {r : Nat}
    (h : poolLookup p c = some r) : (c, r) ∈ p := by
  induction p with
  | nil => simp [poolLookup] at h
  | cons e rest ih =>
      obtain ⟨k, v⟩ := e
      by_cases hk : k = c
      · subst hk
        simp [poolLookup] at h
        subst h
        exact List.mem_cons_self _ _
      · simp [poolLookup, hk] at h
        exact List.mem_cons_of_mem _ (ih h)

theorem snd_nodup_inj {p : List (List Char × Nat)}
    (hnd : (p.map Prod.snd).Nodup) {c₁ c₂ : List Char} {r : Nat}
    (h₁ : (c₁, r) ∈ p) (h₂ : (c₂, r) ∈ p) : c₁ = c₂ := by
  induction p with
  | nil => simp at h₁
  | cons e rest ih =>
      simp only [List.map_cons, List.nodup_cons] at hnd
      rcases List.mem_cons.mp h₁ with h₁ | h₁ <;>
        rcases List.mem_cons.mp h₂ with h₂ | h₂
      · rw [← h₂] at h₁; exact congrArg Prod.fst h₁
      · exfalso
        have hr : r ∈ List.map Prod.snd rest :=
          List.mem_map_of_mem Prod.snd h₂
        have he2 : e.2 = r := (congrArg Prod.snd h₁).symm
        exact hnd.1 (by rw [he2]; exact hr)
      · exfalso
        have hr : r ∈ List.map Prod.snd rest :=
          List.mem_map_of_mem Prod.snd h₁
        have he2 : e.2 = r := (congrArg Prod.snd h₂).symm
        exact hnd.1 (by rw [he2]; exact hr)
      · exact ih hnd.2 h₁ h₂

theorem internStep_extends (st : InternSt) (c : List Char) :
    ∃ q, (internStep st c).1.pool = st.pool ++ q := by
  unfold internStep
  cases h : poolLookup st.pool c with
  | some r => exact ⟨[], by simp⟩
  | none => exact ⟨[(c, st.next)], rfl⟩

theorem internStep_wf {st : InternSt} (hwf : PoolWF st) (c : List Char) :
    PoolWF (internStep st c).1 := by
  unfold internStep
  cases h : poolLookup st.pool c with
  | some r => exact hwf
  | none =>
      constructor
      · intro e he
        simp only [List.mem_append, List.mem_singleton] at he
        rcases he with he | he
        · exact Nat.lt_succ_of_lt (hwf.1 e he)
        · subst he; exact Nat.lt_succ_self _
      · simp only [List.map_append, List.map_cons, List.map_nil,
          List.nodup_append, List.nodup_cons, List.nodup_nil]
        refine ⟨hwf.2, by simp, ?_⟩
        intro r hr hr'
        simp only [List.mem_singleton] at hr'
        subst hr'
        obtain ⟨e, he, hev⟩ := List.mem_map.mp hr
        exact absurd (hwf.1 e he) (by omega)

theorem internStep_lookup (st : InternSt) (c : List Char) :
    poolLookup (internStep st c).1.pool c = some (internStep st c).2 := by
  unfold internStep
  cases h : poolLookup st.pool c with
  | some r => simpa using h
  | none => simp [poolLookup_append, h, poolLookup]

/-- After running a trace, the pool is an extension of the initial pool, it
stays well-formed, and the reference returned by call `k` is exactly the
final pool's binding of the canonical string of input `k` (or no reference
when the input is not recognized as a record id). -/
theorem runTrace_char :
    ∀ (tr : List RecordIdInput) (st : InternSt), PoolWF st →
      PoolWF (runTrace st tr).1 ∧
      (∃ q, (runTrace st tr).1.pool = st.pool ++ q) ∧
      (∀ (k : Nat) (i : RecordIdInput), tr[k]? = some i →
        (runTrace st tr).2[k]? = some
          (match canonicalOf i with
           | none => none
           | some c => poolLookup (runTrace st tr).1.pool c)) := by
  intro tr
  induction tr with
  | nil =>
      intro st hwf
      refine ⟨hwf, ⟨[], by simp [runTrace]⟩, ?_⟩
      intro k i hk
      simp at hk
  | cons i rest ih =>
      intro st hwf
      cases hcan : canonicalOf i with
      | none =>
          have hstep : normStep st i = (st, none) := by
            unfold normStep; rw [hcan]
          have hrun : runTrace st (i :: rest) =
              ((runTrace st rest).1, none :: (runTrace st rest).2) := by
            rw [runTrace, hstep]
          obtain ⟨hwfF, hext, hout⟩ := ih st hwf
          refine ⟨by rw [hrun]; exact hwfF, by rw [hrun]; exact hext, ?_⟩
          intro k j hk
          match k with
          | 0 =>
              simp only [List.getElem?_cons_zero, Option.some.injEq] at hk
              subst hk
              rw [hrun, hcan]
              simp
          | Nat.succ k' =>
              simp only [List.getElem?_cons_succ] at hk
              rw [hrun]
              simpa using hout k' j hk
      | some c =>
          have hstep : normStep st i =
              ((internStep st c).1, some (internStep st c).2) := by
            unfold normStep
            rw [hcan]
          have hrun : runTrace st (i :: rest) =
              ((runTrace (internStep st c).1 rest).1,
                some (internStep st c).2 ::
                  (runTrace (internStep st c).1 rest).2) := by
            rw [runTrace, hstep]
          have hwf' : PoolWF (internStep st c).1 := internStep_wf hwf c
          obtain ⟨hwfF, ⟨q₂, hext₂⟩, hout⟩ := ih (internStep st c).1 hwf'
          obtain ⟨q₁, hext₁⟩ := internStep_extends st c
          refine ⟨by rw [hrun]; exact hwfF, ?_, ?_⟩
          · refine ⟨q₁ ++ q₂, ?_⟩
            rw [hrun]
            simp only
            rw [hext₂, hext₁, List.append_assoc]
          · intro k j hk
            match k with
            | 0 =>
                simp only [List.getElem?_cons_zero, Option.some.injEq] at hk
                subst hk
                rw [hrun, hcan]
                have hlook :
                    poolLookup (runTrace (internStep st c).1 rest).1.pool c =
                    some (internStep st c).2 := by
                  rw [hext₂, poolLookup_append, internStep_lookup st c]
                simp [hlook]
            | Nat.succ k' =>
                simp only [List.getElem?_cons_succ] at hk
                rw [hrun]
                simpa using hout k' j hk

/-- C1: for any sequence of `normalize`/`intern` calls, two recognized
record-id inputs receive the same interned reference (JavaScript `===` on
the returned value, modelled by equal reference tokens) if and only if
their canonical `"<table>:<key>"` strings coincide — i.e. iff they denote
the same `(table, key)` pair, across all documented variants. -/
theorem c1_normalize_identity_iff
    (tr : List RecordIdInput) (i j : Nat) (a b : RecordIdInput)
    (ri rj : Nat)
    (ha : tr[i]? = some a) (hb : tr[j]? = some b)
    (hri : (runTrace initSt tr).2[i]? = some (some ri))
    (hrj : (runTrace initSt tr).2[j]? = some (some rj)) :
    ri = rj ↔ canonicalOf a = canonicalOf b := by
  have hwf0 : PoolWF initSt := by
    constructor
    · intro e he; simp [initSt] at he
    · simp [initSt]
  obtain ⟨hwfF, -, hout⟩ := runTrace_char tr initSt hwf0
  have hia := hout i a ha
  have hjb := hout j b hb
  rw [hri] at hia
  rw [hrj] at hjb
  cases hca : canonicalOf a with
  | none => rw [hca] at hia; simp at hia
  | some ca =>
      cases hcb : canonicalOf b with
      | none => rw [hcb] at hjb; simp at hjb
      | some cb =>
          rw [hca] at hia
          rw [hcb] at hjb
          simp only [Option.some.injEq] at hia hjb
          constructor
          · intro hrr
            subst hrr
            have hma : (ca, ri) ∈ (runTrace initSt tr).1.pool :=
              poolLookup_mem hia.symm
            have hmb : (cb, ri) ∈ (runTrace initSt tr).1.pool :=
              poolLookup_mem hjb.symm
            rw [snd_nodup_inj hwfF.2 hma hmb]
          · intro hcc
            simp only [Option.some.injEq] at hcc
            subst hcc
            rw [← hia] at hjb
            exact Option.some.inj hjb.symm ▸ rfl

/-- The S1 scenario inputs: all five documented variants of `products:1`. -/
def c1Trace : List RecordIdInput :=
  [.str "products:1".toList, .str "'products:1'".toList,
   .str "products:⟨1⟩".toList, .obj "products".toList "1".toList,
   .wrap (.obj "products".toList "1".toList)]

theorem c1_normalize_identity_iff_witness :
    (c1Trace[0]? = some (.str "products:1".toList)) ∧
    (c1Trace[4]? = some (.wrap (.obj "products".toList "1".toList))) ∧
    ((runTrace initSt c1Trace).2[0]? = some (some 0)) ∧
    ((runTrace initSt c1Trace).2[4]? = some (some 0)) ∧
    (0 = 0 ↔ canonicalOf (.str "products:1".toList) =
      canonicalOf (.wrap (.obj "products".toList "1".toList))) :=
  ⟨by decide, by decide, by decide, by decide,
    c1_normalize_identity_iff c1Trace 0 4
      (.str "products:1".toList)
      (.wrap (.obj "products".toList "1".toList)) 0 0
      (by decide) (by decide) (by decide) (by decide)⟩

/-! ## C9: idempotence of record-id canonicalization -/

/-- The key part of a canonical string: everything after the first colon. -/
def canonicalKeyPart (c : List Char) : List Char :=
  match firstColonIdx c with
  | none => []
  | some idx => c.drop (idx + 1)

/-- A key that another canonicalization pass leaves untouched: it does not
start or end with whitespace and is not wrapped in a further layer of
matching quotes or angle brackets. -/
def stableKey (k : List Char) : Bool :=
  match k.head?, k.getLast? with
  | some a, some b =>
      (!isWs a) && (!isWs b) &&
      (!(decide (2 ≤ k.length) && (a == b) && isQuoteChar a)) &&
      (!(decide (2 ≤ k.length) &&
         (((a == '⟨') && (b == '⟩')) || ((a == '<') && (b == '>')))))
  | _, _ => false

theorem head?_mem_self {l : List Char} {a : Char} (h : l.head? = some a) :
    a ∈ l := by
  cases l with
  | nil => simp at h
  | cons x rest =>
      simp only [List.head?_cons, Option.some.injEq] at h
      subst h
      exact List.mem_cons_self _ _

theorem getLast?_mem_self {l : List Char} {a : Char}
    (h : l.getLast? = some a) : a ∈ l := by
  induction l with
  | nil => simp at h
  | cons x rest ih =>
      cases rest with
      | nil =>
          simp only [List.getLast?_singleton, Option.some.injEq] at h
          subst h
          exact List.mem_cons_self _ _
      | cons y r =>
          rw [List.getLast?_cons_cons] at h
          exact List.mem_cons_of_mem _ (ih h)

theorem dropWhile_eq_self {l : List Char}
    (h : ∀ a ∈ l.head?, isWs a = false) : l.dropWhile isWs = l := by
  cases l with
  | nil => rfl
  | cons a rest =>
      have ha : isWs a = false := h a (by simp)
      simp [List.dropWhile_cons, ha]

theorem jsTrim_eq_self {l : List Char}
    (h1 : ∀ a ∈ l.head?, isWs a = false)
    (h2 : ∀ a ∈ l.getLast?, isWs a = false) : jsTrim l = l := by
  unfold jsTrim
  rw [dropWhile_eq_self h1]
  have hrev : l.reverse.dropWhile isWs = l.reverse := by
    apply dropWhile_eq_self
    intro a ha
    rw [List.head?_reverse] at ha
    exact h2 a ha
  rw [hrev, List.reverse_reverse]

theorem stripOuterQuotes_eq_self {l : List Char}
    (htrim : jsTrim l = l)
    (hcond : ∀ a b, l.head? = some a → l.getLast? = some b →
      ¬(2 ≤ l.length ∧ a = b ∧ isQuoteChar a = true)) :
    stripOuterQuotes l = l := by
  unfold stripOuterQuotes
  rw [htrim]
  cases hh : l.head? with
  | none => cases hl : l.getLast? <;> simp [hh, hl]
  | some a =>
      cases hl : l.getLast? with
      | none => simp [hh, hl]
      | some b =>
          simp only [hh, hl]
          rw [if_neg (hcond a b hh hl)]

theorem stripAngleBrackets_eq_self {l : List Char}
    (htrim : jsTrim l = l)
    (hcond : ∀ a b, l.head? = some a → l.getLast? = some b →
      ¬(2 ≤ l.length ∧ ((a = '⟨' ∧ b = '⟩') ∨ (a = '<' ∧ b = '>')))) :
    stripAngleBrackets l = l := by
  unfold stripAngleBrackets
  rw [htrim]
  cases hh : l.head? with
  | none => cases hl : l.getLast? <;> simp [hh, hl]
  | some a =>
      cases hl : l.getLast? with
      | none => simp [hh, hl]
      | some b =>
          simp only [hh, hl]
          rw [if_neg (hcond a b hh hl)]

theorem stableKey_parts {k : List Char} (h : stableKey k = true) :
    ∃ a b, k.head? = some a ∧ k.getLast? = some b ∧
      isWs a = false ∧ isWs b = false ∧
      ¬(2 ≤ k.length ∧ a = b ∧ isQuoteChar a = true) ∧
      ¬(2 ≤ k.length ∧ ((a = '⟨' ∧ b = '⟩') ∨ (a = '<' ∧ b = '>'))) := by
  unfold stableKey at h
  cases hh : k.head? with
  | none => rw [hh] at h; cases hl : k.getLast? <;> rw [hl] at h <;> simp at h
  | some a =>
      cases hl : k.getLast? with
      | none => rw [hh, hl] at h; simp at h
      | some b =>
          rw [hh, hl] at h
          simp only [Bool.and_eq_true, Bool.not_eq_true'] at h
          obtain ⟨⟨⟨hwa, hwb⟩, hq⟩, hangle⟩ := h
          refine ⟨a, b, rfl, rfl, hwa, hwb, ?_, ?_⟩
          · rintro ⟨hlen, rfl, hqa⟩
            rw [decide_eq_true hlen, hqa] at hq
            simp at hq
          · rintro ⟨hlen, hang⟩
            rw [decide_eq_true hlen] at hangle
            rcases hang with ⟨ha, hb⟩ | ⟨ha, hb⟩ <;> subst ha <;> subst hb <;>
              simp at hangle

theorem stableKey_jsTrim {k : List Char} (h : stableKey k = true) :
    jsTrim k = k := by
  obtain ⟨a, b, hh, hl, hwa, hwb, -, -⟩ := stableKey_parts h
  apply jsTrim_eq_self
  · intro x hx; rw [hh] at hx; simp at hx; subst hx; exact hwa
  · intro x hx; rw [hl] at hx; simp at hx; subst hx; exact hwb

theorem stableKey_stripOuterQuotes {k : List Char} (h : stableKey k = true) :
    stripOuterQuotes k = k := by
  obtain ⟨a, b, hh, hl, -, -, hq, -⟩ := stableKey_parts h
  refine stripOuterQuotes_eq_self (stableKey_jsTrim h) ?_
  intro a' b' hh' hl'
  rw [hh] at hh'; rw [hl] at hl'
  cases hh'; cases hl'
  exact hq

theorem stableKey_stripAngleBrackets {k : List Char}
    (h : stableKey k = true) : stripAngleBrackets k = k := by
  obtain ⟨a, b, hh, hl, -, -, -, hangle⟩ := stableKey_parts h
  refine stripAngleBrackets_eq_self (stableKey_jsTrim h) ?_
  intro a' b' hh' hl'
  rw [hh] at hh'; rw [hl] at hl'
  cases hh'; cases hl'
  exact hangle

theorem stableKey_ne_nil {k : List Char} (h : stableKey k = true) :
    k ≠ [] := by
  obtain ⟨a, -, hh, -⟩ := stableKey_parts h
  intro hk
  rw [hk] at hh
  simp at hh

theorem looksLike_ne_nil {t : List Char} (h : looksLikeTableName t = true) :
    t ≠ [] := by
  cases t with
  | nil => simp [looksLikeTableName] at h
  | cons a rest => simp

theorem looksLike_chars {t : List Char} (h : looksLikeTableName t = true) :
    ∀ c ∈ t, isTableHeadChar c = true ∨ isTableTailChar c = true := by
  cases t with
  | nil => simp [looksLikeTableName] at h
  | cons a rest =>
      simp only [looksLikeTableName, Bool.and_eq_true, List.all_eq_true] at h
      intro c hc
      rcases List.mem_cons.mp hc with rfl | hc
      · exact Or.inl h.1
      · exact Or.inr (h.2 c hc)

theorem ws_char_cases {c : Char} (h : isWs c = true) :
    c = ' ' ∨ c = '\t' ∨ c = '\r' ∨ c = '\n' := by
  unfold isWs Char.isWhitespace at h
  have := by simpa [Bool.or_eq_true, decide_eq_true_eq] using h
  tauto

theorem quote_char_cases {c : Char} (h : isQuoteChar c = true) :
    c = '\'' ∨ c = '"' ∨ c = Char.ofNat 96 := by
  unfold isQuoteChar at h
  have := by simpa [Bool.or_eq_true, decide_eq_true_eq] using h
  tauto

/-- Characters allowed by the table-name regex are never a colon,
whitespace, a quote, or an angle bracket. -/
theorem tableChar_not_special {c : Char}
    (h : isTableHeadChar c = true ∨ isTableTailChar c = true) :
    c ≠ ':' ∧ isWs c = false ∧ isQuoteChar c = false := by
  have hcl : c.isAlphanum = true ∨ c = '_' ∨ c = '-' := by
    rcases h with h | h
    · unfold isTableHeadChar at h
      rcases Bool.or_eq_true_iff.mp h with h | h
      · exact Or.inl (by simp [Char.isAlphanum, h])
      · exact Or.inr (Or.inl (by simpa using h))
    · unfold isTableTailChar at h
      rcases Bool.or_eq_true_iff.mp h with h | h
      · rcases Bool.or_eq_true_iff.mp h with h | h
        · exact Or.inl h
        · exact Or.inr (Or.inl (by simpa using h))
      · exact Or.inr (Or.inr (by simpa using h))
  refine ⟨?_, ?_, ?_⟩
  · rintro rfl
    rcases hcl with h' | h' | h' <;> revert h' <;> decide
  · cases hws : isWs c
    · rfl
    · exfalso
      rcases ws_char_cases hws with rfl | rfl | rfl | rfl <;>
        rcases hcl with h' | h' | h' <;> revert h' <;> decide
  · cases hq : isQuoteChar c
    · rfl
    · exfalso
      rcases quote_char_cases hq with rfl | rfl | rfl <;>
        rcases hcl with h' | h' | h' <;> revert h' <;> decide

theorem firstColonIdx_append_cons {t k : List Char} (h : ':' ∉ t) :
    firstColonIdx (t ++ ':' :: k) = some t.length := by
  induction t with
  | nil => simp [firstColonIdx]
  | cons a rest ih =>
      have ha : ¬(a = ':') := fun hh => h (hh ▸ List.mem_cons_self a rest)
      have hrest : ':' ∉ rest := fun hm => h (List.mem_cons_of_mem a hm)
      simp [firstColonIdx, ha, ih hrest]

theorem take_len_append (t u : List Char) : (t ++ u).take t.length = t := by
  induction t with
  | nil => simp
  | cons a rest ih => simp [ih]

theorem drop_len_succ_append (t : List Char) (x : Char) (u : List Char) :
    (t ++ x :: u).drop (t.length + 1) = u := by
  induction t with
  | nil => simp
  | cons a rest ih => simp only [List.cons_append, List.length_cons]; exact ih

/-- Inversion of `toCanonicalRecordIdString`: a canonical string is a valid
table name, a colon, and a non-empty key. -/
theorem toCanonical_inv {v c : List Char}
    (h : toCanonicalRecordIdString v = some c) :
    ∃ t k, c = t ++ ':' :: k ∧ looksLikeTableName t = true ∧ k ≠ [] := by
  simp only [toCanonicalRecordIdString] at h
  split at h
  · exact absurd h (by simp)
  · split at h
    · exact absurd h (by simp)
    · split at h
      · exact absurd h (by simp)
      · rename_i hguard
        push_neg at hguard
        exact ⟨_, _, (Option.some.inj h).symm, hguard.2.2, hguard.2.1⟩

/-- C9 (amended): applying `toCanonicalRecordIdString` to its own output
returns the output unchanged for every input whose canonical key part is
stable — it does not start or end with whitespace and is not wrapped in a
further layer of matching quotes or angle brackets.  (For a doubly wrapped
key the second pass strips one more layer; see the counterexample.) -/
theorem c9_canonicalization_idempotent_on_stable_keys
    (v c : List Char)
    (h : toCanonicalRecordIdString v = some c)
    (hst : stableKey (canonicalKeyPart c) = true) :
    toCanonicalRecordIdString c = some c := by
  obtain ⟨t, k, rfl, hlt, hkne⟩ := toCanonical_inv h
  have htne : t ≠ [] := looksLike_ne_nil hlt
  have hchars := looksLike_chars hlt
  have hspec : ∀ ch ∈ t,
      ch ≠ ':' ∧ isWs ch = false ∧ isQuoteChar ch = false :=
    fun ch hch => tableChar_not_special (hchars ch hch)
  have hcolon : ':' ∉ t := fun hm => (hspec ':' hm).1 rfl
  have hidx : firstColonIdx (t ++ ':' :: k) = some t.length :=
    firstColonIdx_append_cons hcolon
  have hkeypart : canonicalKeyPart (t ++ ':' :: k) = k := by
    unfold canonicalKeyPart
    rw [hidx]
    exact drop_len_succ_append t ':' k
  rw [hkeypart] at hst
  obtain ⟨ta, hta⟩ : ∃ x, t.head? = some x := by
    cases t with
    | nil => exact absurd rfl htne
    | cons x r => exact ⟨x, rfl⟩
  have htaFacts := hspec ta (head?_mem_self hta)
  obtain ⟨tb, htb⟩ : ∃ x, t.getLast? = some x := by
    rw [← List.head?_reverse]
    cases hr : t.reverse with
    | nil => exact absurd (List.reverse_eq_nil_iff.mp hr) htne
    | cons x r => exact ⟨x, rfl⟩
  have htbFacts := hspec tb (getLast?_mem_self htb)
  obtain ⟨ka, kb, hka, hkb, hkwa, hkwb, -, -⟩ := stableKey_parts hst
  have hchead : (t ++ ':' :: k).head? = some ta := by
    rw [List.head?_append_of_ne_nil _ htne, hta]
  have hclast : (t ++ ':' :: k).getLast? = some kb := by
    cases k with
    | nil => exact absurd rfl hkne
    | cons kx kr =>
        rw [List.getLast?_append_of_ne_nil _ (by simp),
          List.getLast?_cons_cons]
        exact hkb
  have htrimc : jsTrim (t ++ ':' :: k) = t ++ ':' :: k := by
    apply jsTrim_eq_self
    · intro x hx; rw [hchead] at hx; simp at hx; subst hx
      exact htaFacts.2.1
    · intro x hx; rw [hclast] at hx; simp at hx; subst hx
      exact hkwb
  have hsoqc : stripOuterQuotes (t ++ ':' :: k) = t ++ ':' :: k := by
    apply stripOuterQuotes_eq_self htrimc
    intro a b ha hb
    rw [hchead] at ha
    cases ha
    rintro ⟨-, -, hq⟩
    rw [htaFacts.2.2] at hq
    cases hq
  have htrimt : jsTrim t = t := by
    apply jsTrim_eq_self
    · intro x hx; rw [hta] at hx; simp at hx; subst hx
      exact htaFacts.2.1
    · intro x hx; rw [htb] at hx; simp at hx; subst hx
      exact htbFacts.2.1
  have hsoqt : stripOuterQuotes t = t := by
    apply stripOuterQuotes_eq_self htrimt
    intro a b ha hb
    rw [hta] at ha
    cases ha
    rintro ⟨-, -, hq⟩
    rw [htaFacts.2.2] at hq
    cases hq
  have hktrim : jsTrim k = k := stableKey_jsTrim hst
  have hksoq : stripOuterQuotes k = k := stableKey_stripOuterQuotes hst
  have hksab : stripAngleBrackets k = k := stableKey_stripAngleBrackets hst
  have hlen : (t ++ ':' :: k).length = t.length + 1 + k.length := by
    simp [List.length_append]
    omega
  have htpos : 0 < t.length := List.length_pos.mpr htne
  have hkpos : 0 < k.length := List.length_pos.mpr hkne
  have hrid : toRecordIdString (t ++ ':' :: k) = t ++ ':' :: k := by
    simp only [toRecordIdString, hsoqc, htrimc, hidx, take_len_append,
      drop_len_succ_append, htrimt, hktrim, hksoq, hksab]
    split
    · rfl
    · split <;> rfl
  have hisc : isRecordIdString (t ++ ':' :: k) = true := by
    simp only [isRecordIdString, hidx, decide_eq_true_eq]
    refine ⟨htpos, ?_⟩
    rw [hlen]
    omega
  simp only [toCanonicalRecordIdString, hrid, hisc, hidx, take_len_append,
    drop_len_succ_append, htrimt, hsoqt, hktrim]
  rw [if_neg (by simp), if_neg]
  rintro (h' | h' | h')
  · exact htne h'
  · exact hkne h'
  · rw [hlt] at h'
    cases h' rfl

/-- C9 counterexample: the documented angle-bracket variant
`products:⟨⟨1⟩⟩` canonicalizes to `products:⟨1⟩`, and canonicalizing that
output again yields `products:1`, so canonicalizing twice differs from
canonicalizing once. -/
theorem c9_counterexample :
    toCanonicalRecordIdString "products:⟨⟨1⟩⟩".toList =
      some "products:⟨1⟩".toList ∧
    toCanonicalRecordIdString "products:⟨1⟩".toList =
      some "products:1".toList ∧
    toCanonicalRecordIdString "products:⟨1⟩".toList ≠
      some "products:⟨1⟩".toList := by
  refine ⟨by decide, by decide, by decide⟩

theorem c9_canonicalization_idempotent_witness :
    toCanonicalRecordIdString "'products:1'".toList =
      some "products:1".toList ∧
    stableKey (canonicalKeyPart "products:1".toList) = true ∧
    toCanonicalRecordIdString "products:1".toList =
      some "products:1".toList :=
  ⟨by decide, by decide,
    c9_canonicalization_idempotent_on_stable_keys
      "'products:1'".toList "products:1".toList (by decide) (by decide)⟩


/-! ## C2: the diff-and-emit step (`same`, `stableStringify`, `diffAndEmit`)

Rows are modelled with an `id`, the optional sync fields `sync_deleted` and
`updated_at` (a timestamp standing for a `Date`, compared via `getTime`),
and the remaining application fields as JSON-like values. -/

inductive JVal where
  | jnull
  | jbool (b : Bool)
  | jnum (n : Int)
  | jstr (s : List Char)
  | jdate (t : Int)
  | jarr (xs : List JVal)
  | jobj (fs : List (List Char × JVal))

/-- Lexicographic comparison of keys, as used by `Object.keys(o).sort()`. -/
def lexLe : List Char → List Char → Bool
  | [], _ => true
  | _ :: _, [] => false
  | a :: as, b :: bs => if a = b then lexLe as bs else decide (a < b)

def insertByKey (kv : List Char × JVal) :
    List (List Char × JVal) → List (List Char × JVal)
  | [] => [kv]
  | h :: t => if lexLe h.1 kv.1 then h :: insertByKey kv t else kv :: h :: t

/-- Sort object entries by key (`Object.keys(o).sort()` in
`stableStringify`). -/
def sortByKey (fs : List (List Char × JVal)) : List (List Char × JVal) :=
  fs.foldr insertByKey []

/-- Modelled from the spec: `Date.prototype.toISOString` is provided by the
JavaScript runtime, not by this repository; modelled as an injective
textual rendering of the epoch timestamp. -/
def isoString (t : Int) : List Char := ("iso:" ++ toString t).toList

/-- The `toJson` pass of `stableStringify` in `src/index.ts`: dates become
ISO strings, object keys are sorted, arrays are mapped recursively,
primitives pass through. -/
def toJsonVal : JVal → JVal
  | .jnull => .jnull
  | .jbool b => .jbool b
  | .jnum n => .jnum n
  | .jstr s => .jstr s
  | .jdate t => .jstr (isoString t)
  | .jarr xs => .jarr (xs.attach.map fun x => toJsonVal x.1)
  | .jobj fs =>
      .jobj (sortByKey (fs.attach.map fun kv => (kv.1.1, toJsonVal kv.1.2)))
decreasing_by
  · have := List.sizeOf_lt_of_mem x.2
    simp only [JVal.jarr.sizeOf_spec]
    omega
  · have h1 := List.sizeOf_lt_of_mem kv.2
    have h2 : sizeOf kv.1.2 < sizeOf kv.1 := by
      obtain ⟨a, b⟩ := kv.1
      simp only [Prod.mk.sizeOf_spec]
      omega
    simp only [JVal.jobj.sizeOf_spec]
    omega

def escapeChar (c : Char) : List Char :=
  if c = '"' ∨ c = '\\' then ['\\', c] else [c]

def sepJoin (sep : List Char) : List (List Char) → List Char
  | [] => []
  | [x] => x
  | x :: xs => x ++ sep ++ sepJoin sep xs

def quoteStr (s : List Char) : List Char :=
  '"' :: (s.map escapeChar).flatten ++ ['"']

/-- Modelled from the spec: `JSON.stringify` is a runtime builtin; modelled
as a standard JSON renderer with quote-and-backslash escaping. -/
def stringifyJ : JVal → List Char
  | .jnull => "null".toList
  | .jbool true => "true".toList
  | .jbool false => "false".toList
  | .jnum n => (toString n).toList
  | .jstr s => quoteStr s
  | .jdate t => quoteStr (isoString t)
  | .jarr xs =>
      '[' :: sepJoin [','] (xs.attach.map fun x => stringifyJ x.1) ++ [']']
  | .jobj fs =>
      Char.ofNat 123 ::
        sepJoin [','] (fs.attach.map fun kv =>
          quoteStr kv.1.1 ++ ':' :: stringifyJ kv.1.2) ++ [Char.ofNat 125]
decreasing_by
  · have := List.sizeOf_lt_of_mem x.2
    simp only [JVal.jarr.sizeOf_spec]
    omega
  · have h1 := List.sizeOf_lt_of_mem kv.2
    have h2 : sizeOf kv.1.2 < sizeOf kv.1 := by
      obtain ⟨a, b⟩ := kv.1
      simp only [Prod.mk.sizeOf_spec]
      omega
    simp only [JVal.jobj.sizeOf_spec]
    omega

/-- `stableStringify` in `src/index.ts`. -/
def stableStringify (v : JVal) : List Char := stringifyJ (toJsonVal v)

structure Row where
  id : List Char
  sync_deleted : Option Bool
  updated_at : Option Int
  fields : List (List Char × JVal)

/-- `getKey` in `src/index.ts`: the row id (via `keyOf`). -/
def rowKey (r : Row) : List Char := r.id

/-- The row seen as the JavaScript object passed to `stableStringify`
(absent optional fields are omitted, as `JSON.stringify` omits
`undefined`). -/
def rowJVal (r : Row) : JVal :=
  .jobj ([("id".toList, JVal.jstr r.id)]
    ++ (match r.sync_deleted with
        | some b => [("sync_deleted".toList, JVal.jbool b)]
        | none => [])
    ++ (match r.updated_at with
        | some t => [("updated_at".toList, JVal.jdate t)]
        | none => [])
    ++ r.fields)

/-- `same` in `src/index.ts` (lines 540-550): with sync-field filtering
(`useLoro`) compare `(sync_deleted ?? false, updated_at?.getTime() ?? 0)`;
otherwise compare stable stringifications. -/
def same (useLoro : Bool) (a b : Row) : Bool :=
  if useLoro then
    (a.sync_deleted.getD false == b.sync_deleted.getD false) &&
    (a.updated_at.getD 0 == b.updated_at.getD 0)
  else stableStringify (rowJVal a) == stableStringify (rowJVal b)

/-- JavaScript `Map` as an insertion-ordered association list. -/
abbrev RowMap := List (List Char × Row)

def mapLookup : RowMap → List Char → Option Row
  | [], _ => none
  | kv :: rest, k => if kv.1 = k then some kv.2 else mapLookup rest k

def mapSet : RowMap → List Char → Row → RowMap
  | [], k, v => [(k, v)]
  | kv :: rest, k, v =>
      if kv.1 = k then (kv.1, v) :: rest else kv :: mapSet rest k v

/-- `buildMap` in `src/index.ts`: JavaScript `new Map(rows.map(r => [getKey(r), r]))`,
which keeps the first insertion position and the last value for duplicate
keys. -/
def buildMap (rows : List Row) : RowMap :=
  rows.foldl (fun m r => mapSet m (rowKey r) r) []

inductive DiffEvent where
  | ins (r : Row)
  | upd (r : Row)
  | del (r : Row)

def eventKey : DiffEvent → List Char
  | .ins r => rowKey r
  | .upd r => rowKey r
  | .del r => rowKey r

/-- The insert-or-update decision for one current entry (the first loop of
`diffAndEmit`). -/
def diffInsUpd (useLoro : Bool) (prev : RowMap) (kv : List Char × Row) :
    Option DiffEvent :=
  match mapLookup prev kv.1 with
  | none => some (.ins kv.2)
  | some p => if same useLoro p kv.2 then none else some (.upd kv.2)

/-- The delete decision for one previous entry (the second loop of
`diffAndEmit`). -/
def diffDel (curr : RowMap) (kv : List Char × Row) : Option DiffEvent :=
  if (mapLookup curr kv.1).isSome then none else some (.del kv.2)

/-- `diffAndEmit` in `src/index.ts` (lines 552-572): inserts and updates in
current-map iteration order, then deletes in previous-map order; returns
the emitted events and the advanced snapshot. -/
def diffAndEmit (useLoro : Bool) (prev : RowMap) (rows : List Row) :
    List DiffEvent × RowMap :=
  let curr := buildMap rows
  (curr.filterMap (diffInsUpd useLoro prev) ++ prev.filterMap (diffDel curr),
   curr)

/-! ### Map lemmas for the diff step -/

/-- A map whose keys are distinct and equal to the row key of their value. -/
def MapWF (m : RowMap) : Prop :=
  (m.map Prod.fst).Nodup ∧ ∀ kv ∈ m, kv.1 = rowKey kv.2

theorem mapLookup_none_iff (m : RowMap) (k : List Char) :
    mapLookup m k = none ↔ k ∉ m.map Prod.fst := by
  induction m with
  | nil => simp [mapLookup]
  | cons kv rest ih =>
      simp only [mapLookup, List.map_cons, List.mem_cons]
      by_cases h : kv.1 = k
      · subst h
        rw [if_pos rfl]
        constructor
        · intro hx
          exact Option.noConfusion hx
        · intro hx
          exact absurd (Or.inl rfl) hx
      · simp only [if_neg h, ih]
        constructor
        · intro hk hor
          rcases hor with hor | hor
          · exact h hor.symm
          · exact hk hor
        · intro hk hmem
          exact hk (Or.inr hmem)

theorem mapLookup_some_mem {m : RowMap} {k : List Char} {r : Row}
    (h : mapLookup m k = some r) : (k, r) ∈ m := by
  induction m with
  | nil => simp [mapLookup] at h
  | cons kv rest ih =>
      by_cases hk : kv.1 = k
      · rw [mapLookup, if_pos hk] at h
        obtain ⟨k1, v1⟩ := kv
        cases hk
        cases Option.some.inj h
        exact List.mem_cons_self _ _
      · rw [mapLookup, if_neg hk] at h
        exact List.mem_cons_of_mem _ (ih h)

theorem mem_mapLookup {m : RowMap} (hnd : (m.map Prod.fst).Nodup)
    {k : List Char} {r : Row} (h : (k, r) ∈ m) : mapLookup m k = some r := by
  induction m with
  | nil => simp at h
  | cons kv rest ih =>
      simp only [List.map_cons, List.nodup_cons] at hnd
      rcases List.mem_cons.mp h with h | h
      · rw [← h, mapLookup, if_pos rfl]
      · have hk : kv.1 ≠ k := by
          intro hkk
          apply hnd.1
          rw [hkk]
          exact List.mem_map_of_mem Prod.fst h
        rw [mapLookup, if_neg hk]
        exact ih hnd.2 h

theorem mapSet_mem {m : RowMap} {k : List Char} {v : Row} :
    ∀ kv ∈ mapSet m k v, kv = (k, v) ∨ kv ∈ m := by
  induction m with
  | nil =>
      intro kv hkv
      simp [mapSet] at hkv
      exact Or.inl hkv
  | cons e rest ih =>
      intro kv hkv
      by_cases he : e.1 = k
      · rw [mapSet, if_pos he] at hkv
        rcases List.mem_cons.mp hkv with h | h
        · subst he
          rw [h]
          exact Or.inl rfl
        · exact Or.inr (List.mem_cons_of_mem _ h)
      · rw [mapSet, if_neg he] at hkv
        rcases List.mem_cons.mp hkv with h | h
        · exact Or.inr (h ▸ List.mem_cons_self _ _)
        · rcases ih kv h with h' | h'
          · exact Or.inl h'
          · exact Or.inr (List.mem_cons_of_mem _ h')

theorem mapSet_fst (m : RowMap) (k : List Char) (v : Row) :
    (mapSet m k v).map Prod.fst =
      if k ∈ m.map Prod.fst then m.map Prod.fst
      else m.map Prod.fst ++ [k] := by
  induction m with
  | nil => simp [mapSet]
  | cons e rest ih =>
      by_cases he : e.1 = k
      · subst he
        rw [mapSet, if_pos rfl]
        simp only [List.map_cons]
        rw [if_pos (List.mem_cons_self e.1 (List.map Prod.fst rest))]
      · rw [mapSet, if_neg he]
        simp only [List.map_cons, List.mem_cons]
        rw [ih]
        by_cases hmem : k ∈ rest.map Prod.fst
        · rw [if_pos hmem, if_pos (Or.inr hmem)]
        · rw [if_neg hmem, if_neg ?_]
          · simp
          · rintro (h | h)
            · exact he h.symm
            · exact hmem h

theorem mapSet_wf {m : RowMap} (hm : MapWF m) (r : Row) :
    MapWF (mapSet m (rowKey r) r) := by
  constructor
  · rw [mapSet_fst]
    by_cases hmem : rowKey r ∈ m.map Prod.fst
    · rw [if_pos hmem]
      exact hm.1
    · rw [if_neg hmem]
      simp only [List.nodup_append, List.nodup_cons, List.nodup_nil]
      refine ⟨hm.1, by simp, ?_⟩
      intro x hx hx'
      simp only [List.mem_singleton] at hx'
      subst hx'
      exact hmem hx
  · intro kv hkv
    rcases mapSet_mem kv hkv with h | h
    · rw [h]
    · exact hm.2 kv h

theorem buildMap_wf (rows : List Row) : MapWF (buildMap rows) := by
  suffices h : ∀ (m : RowMap), MapWF m →
      MapWF (rows.foldl (fun m r => mapSet m (rowKey r) r) m) by
    exact h [] ⟨by simp, by simp⟩
  induction rows with
  | nil => intro m hm; exact hm
  | cons r rest ih =>
      intro m hm
      exact ih _ (mapSet_wf hm r)

theorem filterMap_key_sublist (m : RowMap)
    (f : (List Char × Row) → Option DiffEvent)
    (hf : ∀ kv ∈ m, ∀ e, f kv = some e → eventKey e = kv.1) :
    List.Sublist ((m.filterMap f).map eventKey) (m.map Prod.fst) := by
  induction m with
  | nil => simp
  | cons kv rest ih =>
      have hrest := ih (fun kv' hkv' => hf kv' (List.mem_cons_of_mem _ hkv'))
      cases hfk : f kv with
      | none =>
          rw [List.filterMap_cons, hfk]
          simp only [List.map_cons]
          exact hrest.cons _
      | some e =>
          rw [List.filterMap_cons, hfk]
          simp only [List.map_cons]
          rw [hf kv (List.mem_cons_self _ _) e hfk]
          exact hrest.cons₂ _

theorem diffInsUpd_eq_ins {useLoro : Bool} {prev : RowMap}
    {kv : List Char × Row} {r : Row} :
    diffInsUpd useLoro prev kv = some (.ins r) ↔
      mapLookup prev kv.1 = none ∧ kv.2 = r := by
  unfold diffInsUpd
  cases h : mapLookup prev kv.1 with
  | none => simp
  | some p =>
      by_cases hs : same useLoro p kv.2 = true <;> simp [hs]

theorem diffInsUpd_eq_upd {useLoro : Bool} {prev : RowMap}
    {kv : List Char × Row} {r : Row} :
    diffInsUpd useLoro prev kv = some (.upd r) ↔
      (∃ p, mapLookup prev kv.1 = some p ∧ same useLoro p kv.2 = false) ∧
        kv.2 = r := by
  unfold diffInsUpd
  cases h : mapLookup prev kv.1 with
  | none => simp
  | some p =>
      by_cases hs : same useLoro p kv.2 = true
      · simp [hs]
      · simp only [Bool.not_eq_true] at hs
        simp [hs]

theorem diffInsUpd_ne_del {useLoro : Bool} {prev : RowMap}
    {kv : List Char × Row} {r : Row} :
    diffInsUpd useLoro prev kv ≠ some (.del r) := by
  unfold diffInsUpd
  cases h : mapLookup prev kv.1 with
  | none => simp
  | some p =>
      by_cases hs : same useLoro p kv.2 = true <;> simp [hs]

theorem diffDel_eq_del {curr : RowMap} {kv : List Char × Row} {r : Row} :
    diffDel curr kv = some (.del r) ↔
      mapLookup curr kv.1 = none ∧ kv.2 = r := by
  unfold diffDel
  cases h : mapLookup curr kv.1 <;> simp [h]

theorem diffDel_shape {curr : RowMap} {kv : List Char × Row} {e : DiffEvent}
    (h : diffDel curr kv = some e) : e = .del kv.2 := by
  unfold diffDel at h
  cases hc : mapLookup curr kv.1 <;> rw [hc] at h <;> simp at h
  exact h.symm

theorem diffInsUpd_key {useLoro : Bool} {prev : RowMap}
    {kv : List Char × Row} {e : DiffEvent}
    (h : diffInsUpd useLoro prev kv = some e) : eventKey e = rowKey kv.2 := by
  unfold diffInsUpd at h
  cases hc : mapLookup prev kv.1 <;> rw [hc] at h
  · cases Option.some.inj h
    rfl
  · rename_i p
    by_cases hs : same useLoro p kv.2 = true
    · simp [hs] at h
    · simp only [Bool.not_eq_true] at hs
      simp only [hs, Bool.false_eq_true, if_false, Option.some.injEq] at h
      rw [← h]
      rfl

/-- C2: for every prior snapshot `prev` (well-formed: distinct keys equal to
their row keys) and batch of current rows, `diffAndEmit` emits exactly an
insert for each id in `curr` and not in `prev`, an update for each id in
both whose row content differs under `same` (the `(sync_deleted,
updated_at)` pair when sync-field filtering is in use, the stable
structural comparison otherwise), a delete for each id in `prev` and not in
`curr` — at most one event per id — and afterwards the stored snapshot
equals `curr`. -/
theorem c2_diff_and_emit (useLoro : Bool) (prev : RowMap) (rows : List Row)
    (hnd : (prev.map Prod.fst).Nodup)
    (hwf : ∀ kv ∈ prev, kv.1 = rowKey kv.2) :
    (diffAndEmit useLoro prev rows).2 = buildMap rows ∧
    (∀ r : Row, DiffEvent.ins r ∈ (diffAndEmit useLoro prev rows).1 ↔
      mapLookup (buildMap rows) (rowKey r) = some r ∧
      mapLookup prev (rowKey r) = none) ∧
    (∀ r : Row, DiffEvent.upd r ∈ (diffAndEmit useLoro prev rows).1 ↔
      mapLookup (buildMap rows) (rowKey r) = some r ∧
      ∃ p, mapLookup prev (rowKey r) = some p ∧ same useLoro p r = false) ∧
    (∀ p : Row, DiffEvent.del p ∈ (diffAndEmit useLoro prev rows).1 ↔
      mapLookup prev (rowKey p) = some p ∧
      mapLookup (buildMap rows) (rowKey p) = none) ∧
    ((diffAndEmit useLoro prev rows).1.map eventKey).Nodup := by
  have hcwf := buildMap_wf rows
  have hunfold : diffAndEmit useLoro prev rows =
      ((buildMap rows).filterMap (diffInsUpd useLoro prev) ++
        prev.filterMap (diffDel (buildMap rows)), buildMap rows) := rfl
  rw [hunfold]
  refine ⟨rfl, ?_, ?_, ?_, ?_⟩
  · intro r
    simp only [List.mem_append, List.mem_filterMap]
    constructor
    · rintro (⟨kv, hkv, hf⟩ | ⟨kv, hkv, hg⟩)
      · obtain ⟨hnone, hr⟩ := diffInsUpd_eq_ins.mp hf
        have hk : kv.1 = rowKey r := by rw [hcwf.2 kv hkv, hr]
        subst hr
        have hkv' : (kv.1, kv.2) ∈ buildMap rows := by rwa [Prod.mk.eta]
        constructor
        · rw [← hk]
          exact mem_mapLookup hcwf.1 hkv'
        · rwa [← hk]
      · exact absurd (diffDel_shape hg) (by intro he; cases he)
    · rintro ⟨hcr, hpr⟩
      exact Or.inl ⟨(rowKey r, r), mapLookup_some_mem hcr,
        diffInsUpd_eq_ins.mpr ⟨hpr, rfl⟩⟩
  · intro r
    simp only [List.mem_append, List.mem_filterMap]
    constructor
    · rintro (⟨kv, hkv, hf⟩ | ⟨kv, hkv, hg⟩)
      · obtain ⟨⟨p, hp, hsame⟩, hr⟩ := diffInsUpd_eq_upd.mp hf
        have hk : kv.1 = rowKey r := by rw [hcwf.2 kv hkv, hr]
        subst hr
        have hkv' : (kv.1, kv.2) ∈ buildMap rows := by rwa [Prod.mk.eta]
        refine ⟨?_, p, ?_, hsame⟩
        · rw [← hk]
          exact mem_mapLookup hcwf.1 hkv'
        · rwa [← hk]
      · exact absurd (diffDel_shape hg) (by intro he; cases he)
    · rintro ⟨hcr, p, hp, hsame⟩
      exact Or.inl ⟨(rowKey r, r), mapLookup_some_mem hcr,
        diffInsUpd_eq_upd.mpr ⟨⟨p, hp, hsame⟩, rfl⟩⟩
  · intro p
    simp only [List.mem_append, List.mem_filterMap]
    constructor
    · rintro (⟨kv, hkv, hf⟩ | ⟨kv, hkv, hg⟩)
      · exact absurd hf diffInsUpd_ne_del
      · obtain ⟨hnone, hp⟩ := diffDel_eq_del.mp hg
        have hk : kv.1 = rowKey p := by rw [hwf kv hkv, hp]
        subst hp
        have hkv' : (kv.1, kv.2) ∈ prev := by rwa [Prod.mk.eta]
        constructor
        · rw [← hk]
          exact mem_mapLookup hnd hkv'
        · rwa [← hk]
    · rintro ⟨hpv, hcv⟩
      exact Or.inr ⟨(rowKey p, p), mapLookup_some_mem hpv,
        diffDel_eq_del.mpr ⟨hcv, rfl⟩⟩
  · rw [List.map_append]
    have h1 : List.Sublist
        (((buildMap rows).filterMap (diffInsUpd useLoro prev)).map eventKey)
        ((buildMap rows).map Prod.fst) := by
      apply filterMap_key_sublist
      intro kv hkv e he
      rw [diffInsUpd_key he, ← hcwf.2 kv hkv]
    have h2 : List.Sublist
        ((prev.filterMap (diffDel (buildMap rows))).map eventKey)
        (prev.map Prod.fst) := by
      apply filterMap_key_sublist
      intro kv hkv e he
      rw [diffDel_shape he]
      exact (hwf kv hkv).symm
    rw [List.nodup_append]
    refine ⟨hcwf.1.sublist h1, hnd.sublist h2, ?_⟩
    intro x hx1 hx2
    have hxc : x ∈ (buildMap rows).map Prod.fst := h1.subset hx1
    obtain ⟨e, he, hek⟩ := List.mem_map.mp hx2
    obtain ⟨kv, hkv, hg⟩ := List.mem_filterMap.mp he
    have hshape := diffDel_shape hg
    subst hshape
    have hlnone : mapLookup (buildMap rows) kv.1 = none := by
      unfold diffDel at hg
      by_cases hh : (mapLookup (buildMap rows) kv.1).isSome
      · rw [if_pos hh] at hg
        cases hg
      · exact Option.not_isSome_iff_eq_none.mp hh
    have hxk : x = kv.1 := by
      rw [← hek]
      exact (hwf kv hkv).symm
    rw [hxk] at hxc
    rw [mapLookup_none_iff] at hlnone
    exact hlnone hxc

def c2Row1 : Row := ⟨"note:1".toList, none, none, []⟩

def c2Prev : RowMap := [("note:1".toList, c2Row1)]

theorem c2_diff_and_emit_witness :
    DiffEvent.del c2Row1 ∈ (diffAndEmit false c2Prev []).1 :=
  ((c2_diff_and_emit false c2Prev [] (by decide) (by decide)).2.2.2.1
      c2Row1).mpr ⟨rfl, rfl⟩

/-! ## C4: on-demand gating of base-table live events (`ensureBaseLive`) -/

inductive LiveAction where
  | create
  | update
  | delete
  | killed
deriving DecidableEq

/-- The on-demand subset cache (`subsetIds` in `src/index.ts`): descriptor
key → ids loaded by that subset. -/
structure SubsetState where
  subsets : List (List Char × List (List Char))
deriving DecidableEq

/-- `updateActiveOnDemandIds` in `src/index.ts`: `activeOnDemandIds` is
recomputed as the union of all subset id sets. -/
def activeIds (st : SubsetState) : List (List Char) :=
  (st.subsets.map Prod.snd).flatten

structure BaseLiveMsg (V : Type) where
  action : LiveAction
  rowId : List Char
  rowVal : V

inductive BaseWrite (V : Type) where
  | wIns (v : V)
  | wUpd (v : V)
  | wDel (key : List Char)

/-- The base-table live subscriber of `ensureBaseLive` in `src/index.ts`
(lines 1507-1546): `KILLED` is ignored; in strict on-demand mode
insert/update events for invisible ids are dropped; a DELETE removes the id
from every subset and is forwarded only when the id was visible (or the
mode is not strict on-demand); other events are decoded and written.  The
`decode` parameter stands for `decodeBaseRow`. -/
def handleBaseLive {V : Type} (strict : Bool) (tableName : List Char)
    (decode : V → V) (st : SubsetState) (msg : BaseLiveMsg V) :
    SubsetState × Option (BaseWrite V) :=
  if msg.action = .killed then (st, none)
  else
    let id := msg.rowId
    let wasVisible := id ∈ activeIds st
    if strict ∧ ¬ wasVisible ∧ msg.action ≠ .delete then (st, none)
    else if msg.action = .delete then
      let st' : SubsetState :=
        ⟨st.subsets.map (fun kv => (kv.1, kv.2.filter (fun x => x ≠ id)))⟩
      if strict ∧ ¬ wasVisible then (st', none)
      else (st', some (.wDel (tableName ++ ':' :: id)))
    else
      (st, some (if msg.action = .create then .wIns (decode msg.rowVal)
                 else .wUpd (decode msg.rowVal)))

/-- C4 (amended): in strict on-demand mode an insert/update live event for
an id outside the active set produces no write; a DELETE removes the id
from every subset id set, but is forwarded to the host only when the id
was visible or the mode is not strict on-demand (an invisible id in strict
on-demand produces no delete write, unlike the claim). -/
theorem c4_on_demand_gating {V : Type} (strict : Bool) (tbl : List Char)
    (decode : V → V) (st : SubsetState) (msg : BaseLiveMsg V) :
    (strict = true → (msg.action = .create ∨ msg.action = .update) →
      msg.rowId ∉ activeIds st →
      handleBaseLive strict tbl decode st msg = (st, none)) ∧
    (msg.action = .delete →
      (∀ kv ∈ (handleBaseLive strict tbl decode st msg).1.subsets,
        msg.rowId ∉ kv.2) ∧
      ((handleBaseLive strict tbl decode st msg).2 =
        if strict ∧ msg.rowId ∉ activeIds st then none
        else some (.wDel (tbl ++ ':' :: msg.rowId)))) := by
  constructor
  · intro hstrict hact hnvis
    subst hstrict
    rcases hact with ha | ha <;>
      simp [handleBaseLive, ha, hnvis]
  · intro hdel
    have hstep : handleBaseLive strict tbl decode st msg =
        (⟨st.subsets.map
            (fun kv => (kv.1, kv.2.filter (fun x => x ≠ msg.rowId)))⟩,
          if strict ∧ msg.rowId ∉ activeIds st then none
          else some (.wDel (tbl ++ ':' :: msg.rowId))) := by
      by_cases hvis : msg.rowId ∈ activeIds st <;>
        by_cases hs : strict = true <;>
          simp [handleBaseLive, hdel, hvis, hs]
    rw [hstep]
    refine ⟨?_, rfl⟩
    intro kv hkv
    obtain ⟨kv₀, hkv₀, rfl⟩ := List.mem_map.mp hkv
    intro hmem
    have := List.of_mem_filter hmem
    simp at this

def c4St : SubsetState := ⟨[("k".toList, ["task:1".toList])]⟩

def c4DelMsg : BaseLiveMsg Unit := ⟨.delete, "2".toList, ()⟩

theorem c4_on_demand_gating_witness :
    (∀ kv ∈ (handleBaseLive (V := Unit) true "task".toList id c4St
        c4DelMsg).1.subsets, c4DelMsg.rowId ∉ kv.2) ∧
    ((handleBaseLive (V := Unit) true "task".toList id c4St c4DelMsg).2 =
      if (true : Bool) ∧ c4DelMsg.rowId ∉ activeIds c4St then none
      else some (.wDel ("task".toList ++ ':' :: c4DelMsg.rowId))) :=
  (c4_on_demand_gating true "task".toList id c4St c4DelMsg).2 rfl

/-- C4 counterexample: in strict on-demand mode, a DELETE live event for an
id that is in no loaded subset produces no delete write to the host
(`ensureBaseLive` returns before `ctx.write` at line 1523), although the
claim says a DELETE event always produces a delete write. -/
theorem c4_counterexample :
    c4DelMsg.action = .delete ∧
    (handleBaseLive (V := Unit) true "task".toList id ⟨[]⟩ c4DelMsg).2 =
      none := by
  constructor
  · rfl
  · rfl

/-! ## C3: CRDT loop prevention on the updates-table live stream
(`ensureUpdateLive`) -/

structure UpdateLiveMsg where
  action : LiveAction
  docKey : List Char
  actor : Option (List Char)
  update_bytes : Option (List Nat)

/-- `value.actor && value.actor === resolveActor(id)` in `src/index.ts`:
an empty-string actor is falsy, and the comparison with an unresolved
(undefined) local actor is false. -/
def actorMatches (actor resolved : Option (List Char)) : Bool :=
  match actor with
  | none => false
  | some a =>
      decide (a ≠ []) &&
      (match resolved with
       | some r => a == r
       | none => false)

/-- `decodeUpdateBytes` (non-E2EE update path) in `src/index.ts`: a missing
or empty `update_bytes` yields empty bytes.  Base64 decoding lives in
`src/util.ts`, which is not part of the sources; the field is modelled as
the already-decoded byte list. -/
def decodedUpdateBytes (msg : UpdateLiveMsg) : List Nat :=
  match msg.update_bytes with
  | none => []
  | some bs => bs

inductive UpdateLiveResult (D V : Type) where
  | skip
  | applied (bytes : List Nat) (doc : D) (written : V)

/-- The updates-table live subscriber of `ensureUpdateLive` in
`src/index.ts` (lines 1566-1588): drop `KILLED` and `DELETE`; drop rows
whose actor equals the locally resolved actor; in strict on-demand mode
drop invisible ids; drop empty update bytes; otherwise import the bytes
into the document and write an update with the new materialized view.
`imp` and `mat` stand for `doc.import` and the profile
`materializeCrdt`. -/
def handleUpdateLive {D V : Type} (strict : Bool)
    (active : List (List Char))
    (resolveActor : List Char → Option (List Char))
    (imp : D → List Nat → D) (mat : D → List Char → V) (doc : D)
    (msg : UpdateLiveMsg) : UpdateLiveResult D V :=
  if msg.action = .killed then .skip
  else if msg.action = .delete then .skip
  else
    let id := msg.docKey
    if actorMatches msg.actor (resolveActor id) then .skip
    else if strict ∧ id ∉ active then .skip
    else
      let bytes := decodedUpdateBytes msg
      if bytes = [] then .skip
      else .applied bytes (imp doc bytes) (mat (imp doc bytes) id)

/-- C3 (amended): an incoming update row whose actor equals the locally
resolved actor is always dropped (no import, no write); a row whose actor
differs or is absent is imported and followed by one update write with the
new materialized view, provided the engine processes it — the id is active
when in strict on-demand mode and the decoded update bytes are
non-empty. -/
theorem c3_crdt_loop_prevention {D V : Type} (strict : Bool)
    (active : List (List Char))
    (resolveActor : List Char → Option (List Char))
    (imp : D → List Nat → D) (mat : D → List Char → V) (doc : D)
    (msg : UpdateLiveMsg) :
    (actorMatches msg.actor (resolveActor msg.docKey) = true →
      handleUpdateLive strict active resolveActor imp mat doc msg = .skip) ∧
    ((msg.action = .create ∨ msg.action = .update) →
      actorMatches msg.actor (resolveActor msg.docKey) = false →
      ¬(strict = true ∧ msg.docKey ∉ active) →
      decodedUpdateBytes msg ≠ [] →
      handleUpdateLive strict active resolveActor imp mat doc msg =
        .applied (decodedUpdateBytes msg)
          (imp doc (decodedUpdateBytes msg))
          (mat (imp doc (decodedUpdateBytes msg)) msg.docKey)) := by
  constructor
  · intro hmatch
    by_cases hk : msg.action = .killed
    · simp [handleUpdateLive, hk]
    · by_cases hd : msg.action = .delete <;>
        simp [handleUpdateLive, hk, hd, hmatch]
  · intro hact hmatch hvis hbytes
    rcases hact with ha | ha <;>
      simp [handleUpdateLive, ha, hmatch, hvis, hbytes]

def c3Msg : UpdateLiveMsg :=
  ⟨.create, "abc".toList, some "device-b".toList, none⟩

/-- C3 counterexample: a CREATE event on the updates table whose actor
(`device-b`) differs from the locally resolved actor (`device-a`) but
whose row carries no update bytes is dropped — nothing is imported into
the document and no update write is emitted — although the claim says
events whose actor differs are imported and followed by an update
write. -/
theorem c3_counterexample :
    actorMatches c3Msg.actor (some "device-a".toList) = false ∧
    handleUpdateLive (D := Unit) (V := Unit) false []
      (fun _ => some "device-a".toList) (fun d _ => d) (fun _ _ => ()) ()
      c3Msg = .skip := by
  constructor
  · decide
  · rfl

def c3GoodMsg : UpdateLiveMsg :=
  ⟨.create, "abc".toList, some "device-b".toList, some [1, 2]⟩

theorem c3_crdt_loop_prevention_witness :
    handleUpdateLive (D := List (List Nat)) (V := List (List Nat)) false []
      (fun _ => some "device-a".toList) (fun d bs => bs :: d)
      (fun d _ => d) [] c3GoodMsg =
      .applied (decodedUpdateBytes c3GoodMsg)
        [decodedUpdateBytes c3GoodMsg]
        [decodedUpdateBytes c3GoodMsg] :=
  (c3_crdt_loop_prevention false [] (fun _ => some "device-a".toList)
      (fun d bs => bs :: d) (fun d _ => d) [] c3GoodMsg).2
    (Or.inl rfl) (by decide) (by simp) (by decide)

/-! ## C5: default AAD derivation (`defaultAad`, `encodeUpdatePayload`) -/

inductive EnvelopeKind where
  | base
  | update
  | snapshot
deriving DecidableEq

structure AADContext where
  table : List Char
  id : List Char
  kind : EnvelopeKind
  baseTable : Option (List Char)

/-- Modelled from the spec: `toBytes` on a string lives in `src/util.ts`,
which is not among the sources; it is UTF-8 encoding of the string, so the
AAD is represented by the character sequence itself. -/
def aadBytes (s : List Char) : List Char := s

/-- `defaultAad` in `src/index.ts` (lines 1130-1134). -/
def defaultAad (ctx : AADContext) : List Char :=
  if ctx.kind = .base then aadBytes (ctx.table ++ ':' :: ctx.id)
  else
    let base := ctx.baseTable.getD ctx.table
    aadBytes (ctx.table ++ ':' :: (base ++ ':' :: ctx.id))

/-- The AAD context built by `encodeUpdatePayload` in `src/index.ts`
(lines 1333-1355) when E2EE is enabled: the target table is the snapshots
table for `kind = snapshot` and the updates table otherwise, falling back
to the base table name; `baseTable` is the base table name. -/
def updateAadContext (updatesTableName snapshotsTableName : Option (List Char))
    (tableName id : List Char) (kind : EnvelopeKind) : AADContext :=
  let target := if kind = .snapshot then snapshotsTableName
                else updatesTableName
  ⟨target.getD tableName, id, kind, some tableName⟩

/-- The AAD used by `encodeUpdatePayload` under the default derivation
(no `e2ee.aad` override). -/
def encodeUpdateAad (updatesTableName snapshotsTableName : Option (List Char))
    (tableName id : List Char) (kind : EnvelopeKind) : List Char :=
  defaultAad
    (updateAadContext updatesTableName snapshotsTableName tableName id kind)

/-- C5: with no AAD override, a base-table record is bound to the bytes of
`<base_table>:<record_key>`, and an update or snapshot log row to the
bytes of `<log_table>:<base_table>:<doc_key>`; in the S4 scenario
(updates table `crdt_update`, base table `doc`, key `abc`) the update AAD
is exactly `crdt_update:doc:abc`. -/
theorem c5_default_aad (tbl key logTbl snapTbl docKey : List Char) :
    defaultAad ⟨tbl, key, .base, none⟩ = tbl ++ ':' :: key ∧
    encodeUpdateAad (some logTbl) (some snapTbl) tbl docKey .update =
      logTbl ++ ':' :: (tbl ++ ':' :: docKey) ∧
    encodeUpdateAad (some logTbl) (some snapTbl) tbl docKey .snapshot =
      snapTbl ++ ':' :: (tbl ++ ':' :: docKey) ∧
    encodeUpdateAad (some "crdt_update".toList) none "doc".toList
      "abc".toList .update = "crdt_update:doc:abc".toList := by
  refine ⟨rfl, rfl, rfl, by decide⟩

/-! ## C6: `markReady` over the lifetime of one sync (`start`) -/

inductive AdapterSyncMode where
  | eager
  | onDemand
  | progressive
deriving DecidableEq

inductive HostCall where
  | begin
  | write
  | commit
  | markReady
  | errorSink
deriving DecidableEq

def exOk {α : Type} : Except Unit α → Bool
  | .ok _ => true
  | .error _ => false

/-- `hydratePlainRows` in `src/index.ts`: nothing for an empty batch,
otherwise one `begin`, one `write` per row, one `commit`. -/
def hydratePlainRowsCalls (rows : List Unit) : List HostCall :=
  if rows = [] then []
  else [.begin] ++ rows.map (fun _ => .write) ++ [.commit]

/-- Opening a live subscription (`ensureBaseLive` / `ensureUpdateLive`):
when live queries are unsupported the function returns silently; otherwise
`db.live` may reject, and the rejection propagates to the caller. -/
def liveCalls (liveSupported : Bool) (liveOpen : Except Unit Unit) :
    Except Unit (List HostCall) :=
  if ¬liveSupported then .ok []
  else match liveOpen with
    | .ok _ => .ok []
    | .error e => .error e

/-- The progressive background `loadSubset(\x7b\x7d)` pass, which runs with
its own `.catch(onError)` and never touches `markReady`. -/
def loadSubsetCalls (crdtEnabled : Bool) (fetch : Except Unit (List Unit))
    (liveSupported : Bool) (liveOpen : Except Unit Unit) : List HostCall :=
  match fetch with
  | .error _ => [.errorSink]
  | .ok rows =>
      (if crdtEnabled then
        (rows.map (fun _ => [HostCall.begin, .write, .commit])).flatten
       else hydratePlainRowsCalls rows) ++
      (match liveCalls liveSupported liveOpen with
       | .ok c => c
       | .error _ => [.errorSink])

/-- The `start` function of the sync entrypoint in `src/index.ts`
(lines 1918-1977), wrapped in `void start().catch(e => onError?.(e))`: in
eager mode it hydrates (plain rows, or the update log materialized into
docs) before `markReady`; a remote rejection or live-open rejection
escapes to the catch and reaches only `onError`.  In on-demand and
progressive modes `markReady` is called immediately.  The `.ok` payloads
hold one element per emitted row / materialized doc. -/
def startCalls (mode : AdapterSyncMode)
    (crdtEnabled updatesConfigured liveSupported : Bool)
    (hydration updatesFetch : Except Unit (List Unit))
    (liveOpen : Except Unit Unit)
    (bgFetch : Except Unit (List Unit)) : List HostCall :=
  if mode = .eager then
    if ¬crdtEnabled then
      match hydration with
      | .error _ => [.errorSink]
      | .ok rows =>
          hydratePlainRowsCalls rows ++
          (match liveCalls liveSupported liveOpen with
           | .error _ => [.errorSink]
           | .ok c => c ++ [.markReady])
    else
      if updatesConfigured then
        match updatesFetch with
        | .error _ => [.errorSink]
        | .ok docs =>
            [.begin] ++ docs.map (fun _ => .write) ++ [.commit] ++
            (match liveCalls liveSupported liveOpen with
             | .error _ => [.errorSink]
             | .ok c => c ++ [.markReady])
      else [.markReady]
  else
    [.markReady] ++
      (if mode = .progressive then
        loadSubsetCalls crdtEnabled bgFetch liveSupported liveOpen
       else [])

theorem markReady_not_mem_hydrate (rows : List Unit) :
    HostCall.markReady ∉ hydratePlainRowsCalls rows := by
  unfold hydratePlainRowsCalls
  split
  · simp
  · simp [List.mem_append, List.mem_map]

theorem markReady_not_mem_loadSubset (crdtEnabled : Bool)
    (fetch : Except Unit (List Unit)) (liveSupported : Bool)
    (liveOpen : Except Unit Unit) :
    HostCall.markReady ∉
      loadSubsetCalls crdtEnabled fetch liveSupported liveOpen := by
  rcases fetch with e | rows
  · simp [loadSubsetCalls]
  · simp only [loadSubsetCalls]
    intro hmem
    rcases List.mem_append.mp hmem with h | h
    · cases crdtEnabled with
      | false =>
          simp only [Bool.false_eq_true, if_false] at h
          exact markReady_not_mem_hydrate rows h
      | true =>
          simp only [if_true] at h
          obtain ⟨part, hpart, hin⟩ := List.mem_flatten.mp h
          obtain ⟨x, hx, rfl⟩ := List.mem_map.mp hpart
          simp at hin
    · unfold liveCalls at h
      cases liveSupported with
      | false => simp at h
      | true => rcases liveOpen with e | u <;> simp at h

/-- C6 (amended): `markReady` is called at most once per sync lifetime —
exactly once in on-demand and progressive modes (immediately) and in eager
mode after successful hydration, including when live queries are
unsupported; but when the eager hydration query or the live-subscription
open rejects, the rejection reaches only `onError` and `markReady` is
never called. -/
theorem c6_markReady_at_most_once (mode : AdapterSyncMode)
    (crdtEnabled updatesConfigured liveSupported : Bool)
    (hydration updatesFetch : Except Unit (List Unit))
    (liveOpen : Except Unit Unit)
    (bgFetch : Except Unit (List Unit)) :
    (startCalls mode crdtEnabled updatesConfigured liveSupported hydration
        updatesFetch liveOpen bgFetch).count .markReady =
      if mode = .eager ∧
          ((crdtEnabled = false ∧ (exOk hydration = false ∨
             (liveSupported = true ∧ exOk liveOpen = false))) ∨
           (crdtEnabled = true ∧ updatesConfigured = true ∧
             (exOk updatesFetch = false ∨
              (liveSupported = true ∧ exOk liveOpen = false))))
      then 0 else 1 := by
  have hhyd : ∀ rows : List Unit,
      (hydratePlainRowsCalls rows).count .markReady = 0 :=
    fun rows => List.count_eq_zero.mpr (markReady_not_mem_hydrate rows)
  have hbg : (loadSubsetCalls crdtEnabled bgFetch liveSupported
      liveOpen).count .markReady = 0 :=
    List.count_eq_zero.mpr
      (markReady_not_mem_loadSubset crdtEnabled bgFetch liveSupported
        liveOpen)
  have hwr : ∀ docs : List Unit,
      ((docs.map (fun _ => HostCall.write)).count HostCall.markReady) = 0 := by
    intro docs
    rw [List.count_eq_zero]
    intro hmem
    obtain ⟨x, hx, he⟩ := List.mem_map.mp hmem
    cases he
  rcases mode <;> cases crdtEnabled <;> cases updatesConfigured <;>
    cases liveSupported <;> rcases hydration with e₁ | rows <;>
    rcases updatesFetch with e₂ | docs <;> rcases liveOpen with e₃ | u <;>
    simp [startCalls, liveCalls, exOk, List.count_append, hhyd, hbg, hwr,
      List.count_cons, List.count_nil, List.count_replicate]

/-- C6 counterexample: in eager mode, when the initial hydration query
rejects, the sync reports the error through `onError` and `markReady` is
called zero times, not exactly once as the claim states. -/
theorem c6_counterexample :
    (startCalls .eager false false true (.error ()) (.ok []) (.ok ())
        (.ok [])).count .markReady = 0 ∧
    (startCalls .eager false false true (.error ()) (.ok []) (.ok ())
        (.ok [])).count .markReady ≠ 1 := by
  refine ⟨rfl, by decide⟩

/-! ## C8: the insert schema (`createInsertSchema`) -/

/-- JavaScript values as seen by the insert schema and
`normalizeRecordIdLikeValue`: primitives, arrays, plain objects, native
record-id instances (`urid`, whose `toString` is modelled as
`table ++ ":" ++ key`), cross-runtime record-id objects with a custom
`toString` (`uforeign`), and pooled interned record-id references
(`uinterned c`, the process-wide identity for canonical string `c`, whose
re-canonicalization round-trips to `c`). -/
inductive UVal where
  | unull
  | ubool (b : Bool)
  | unum (n : Int)
  | ustr (s : List Char)
  | uarr (xs : List UVal)
  | uobj (fs : List (List Char × UVal))
  | urid (table key : List Char)
  | uforeign (table idv : List Char)
  | uinterned (c : List Char)

/-- `asCanonicalRecordIdString` in `src/id.ts` on JavaScript values:
strings are canonicalized directly; native record ids via their rendered
string; cross-runtime objects via `asCanonicalRecordIdFromCrossRuntimeObject`;
a plain object is never itself a cross-runtime object (its `toString` is
`Object.prototype.toString`), but a single-key `id` wrapper is unwrapped
and retried; arrays and primitives yield nothing. -/
def asCanonicalU : UVal → Option (List Char)
  | .ustr s => toCanonicalRecordIdString s
  | .urid t k => toCanonicalRecordIdString (t ++ ':' :: k)
  | .uinterned c => some c
  | .uforeign t i => crossRuntimeCanonical t i
  | .uobj [(k, v)] =>
      if k = "id".toList then asCanonicalU v else none
  | _ => none

/-- `normalizeRecordIdLikeValue` in `src/id.ts` (lines 238-275), at value
level: a recognized record-id-like value is replaced by the interned
reference for its canonical string; anything else — including arrays and
plain objects that are not id wrappers — is returned unchanged, without
recursing into nested fields. -/
def normalizeU : UVal → UVal
  | .ustr s =>
      let trimmed := jsTrim s
      let unquoted := stripOuterQuotes trimmed
      (match (match toCanonicalRecordIdString unquoted with
              | some c => some c
              | none =>
                  if unquoted = trimmed then none
                  else toCanonicalRecordIdString trimmed) with
       | some c => .uinterned c
       | none => .ustr s)
  | .unull => .unull
  | .ubool b => .ubool b
  | .unum n => .unum n
  | v =>
      match asCanonicalU v with
      | some c => .uinterned c
      | none => v

/-- `normalizeRecordIdLikeFields` in `src/id.ts` (lines 302-310): each
top-level field through `normalizeRecordIdLikeValue` — a shallow pass. -/
def normalizeFieldsU (fs : List (List Char × UVal)) :
    List (List Char × UVal) :=
  fs.map (fun kv => (kv.1, normalizeU kv.2))

/-- JavaScript truthiness of the `id` field (`!data.id`). -/
def truthyU : UVal → Bool
  | .unull => false
  | .ubool b => b
  | .unum n => decide (n ≠ 0)
  | .ustr s => decide (s ≠ [])
  | _ => true

def tempIdSentinel : List Char := "__temp__".toList

/-- `createTempRecordId` in `src/index.ts` (lines 1017-1020): a native
record id on the collection table whose key carries the sentinel; the
random suffix is a parameter. -/
def createTempRecordId (tableName suffix : List Char) : UVal :=
  .urid tableName (tempIdSentinel ++ suffix)

def fieldLookup : List (List Char × UVal) → List Char → Option UVal
  | [], _ => none
  | kv :: rest, k => if kv.1 = k then some kv.2 else fieldLookup rest k

def fieldSet : List (List Char × UVal) → List Char → UVal →
    List (List Char × UVal)
  | [], k, v => [(k, v)]
  | kv :: rest, k, v =>
      if kv.1 = k then (kv.1, v) :: rest else kv :: fieldSet rest k v

/-- The enumerable own properties copied by `\x7b...value\x7d` for the
object inputs the guard accepts; native record ids expose `tb`/`id`
(external `surrealdb` internals), pooled references are opaque. -/
def spreadEntries : UVal → List (List Char × UVal)
  | .uobj fs => fs
  | .urid t k => [("tb".toList, .ustr t), ("id".toList, .ustr k)]
  | .uforeign t i => [("table".toList, .ustr t), ("id".toList, .ustr i)]
  | _ => []

inductive ValidateResult where
  | issue (msg : List Char)
  | ok (v : List (List Char × UVal))

def c8IssueMsg : List Char := "Insert data must be an object.".toList

/-- The object branch of `validate`: shallow-normalize the spread fields,
then install a sentinel temporary id when the (normalized) id is falsy or
absent. -/
def insertOutput (tableName suffix : List Char)
    (fs : List (List Char × UVal)) : List (List Char × UVal) :=
  let data := normalizeFieldsU fs
  match fieldLookup data "id".toList with
  | some v =>
      if truthyU v then data
      else fieldSet data "id".toList (createTempRecordId tableName suffix)
  | none => fieldSet data "id".toList (createTempRecordId tableName suffix)

/-- `createInsertSchema(...).validate` in `src/index.ts`
(lines 1098-1128): null, primitives and arrays are rejected with an issue;
other values are spread, shallow-normalized, and given a temporary id when
the id is absent or falsy. -/
def validateInsert (tableName suffix : List Char) (value : UVal) :
    ValidateResult :=
  match value with
  | .unull => .issue c8IssueMsg
  | .ubool b => .issue c8IssueMsg
  | .unum n => .issue c8IssueMsg
  | .ustr s => .issue c8IssueMsg
  | .uarr xs => .issue c8IssueMsg
  | v => .ok (insertOutput tableName suffix (spreadEntries v))

theorem fieldLookup_normalizeFields (fs : List (List Char × UVal))
    (k : List Char) :
    fieldLookup (normalizeFieldsU fs) k =
      (fieldLookup fs k).map normalizeU := by
  induction fs with
  | nil => rfl
  | cons kv rest ih =>
      simp only [normalizeFieldsU, List.map_cons, fieldLookup]
      by_cases h : kv.1 = k
      · simp [h]
      · simp only [if_neg h]
        exact ih

theorem fieldLookup_fieldSet_self (m : List (List Char × UVal))
    (k : List Char) (v : UVal) :
    fieldLookup (fieldSet m k v) k = some v := by
  induction m with
  | nil => simp [fieldSet, fieldLookup]
  | cons kv rest ih =>
      by_cases h : kv.1 = k <;> simp [fieldSet, fieldLookup, h, ih]

theorem fieldLookup_fieldSet_ne (m : List (List Char × UVal))
    (k k' : List Char) (v : UVal) (h : k' ≠ k) :
    fieldLookup (fieldSet m k v) k' = fieldLookup m k' := by
  induction m with
  | nil =>
      have hne : ¬(k = k') := fun hh => h hh.symm
      simp [fieldSet, fieldLookup, hne]
  | cons kv rest ih =>
      by_cases hk : kv.1 = k
      · rw [fieldSet, if_pos hk, fieldLookup, fieldLookup,
          if_neg (by rw [hk]; exact fun hh => h hh.symm),
          if_neg (by rw [hk]; exact fun hh => h hh.symm)]
      · rw [fieldSet, if_neg hk]
        by_cases hk' : kv.1 = k' <;>
          simp [fieldLookup, hk', ih]

/-- C8 (amended): insert validation rejects null, primitives and arrays
with an issue; for a plain object it returns a value whose top-level
fields are each passed through `normalizeRecordIdLikeValue` (a shallow
pass — nested record-id-like fields inside non-id-like objects are left
as they are), whose id is the normalized input id when that is truthy and
otherwise a freshly generated temporary id on the collection table
carrying the `__temp__` sentinel. -/
theorem c8_insert_schema_amended (tableName suffix : List Char)
    (fs : List (List Char × UVal)) :
    validateInsert tableName suffix .unull = .issue c8IssueMsg ∧
    (∀ n : Int, validateInsert tableName suffix (.unum n) =
      .issue c8IssueMsg) ∧
    (∀ b : Bool, validateInsert tableName suffix (.ubool b) =
      .issue c8IssueMsg) ∧
    (∀ s : List Char, validateInsert tableName suffix (.ustr s) =
      .issue c8IssueMsg) ∧
    (∀ xs : List UVal, validateInsert tableName suffix (.uarr xs) =
      .issue c8IssueMsg) ∧
    validateInsert tableName suffix (.uobj fs) =
      .ok (insertOutput tableName suffix fs) ∧
    (∀ k : List Char, k ≠ "id".toList →
      fieldLookup (insertOutput tableName suffix fs) k =
        (fieldLookup fs k).map normalizeU) ∧
    (match (fieldLookup fs "id".toList).map normalizeU with
     | some v =>
         if truthyU v then
           fieldLookup (insertOutput tableName suffix fs) "id".toList =
             some v
         else
           fieldLookup (insertOutput tableName suffix fs) "id".toList =
             some (createTempRecordId tableName suffix)
     | none =>
         fieldLookup (insertOutput tableName suffix fs) "id".toList =
           some (createTempRecordId tableName suffix)) ∧
    createTempRecordId tableName suffix =
      .urid tableName (tempIdSentinel ++ suffix) := by
  refine ⟨rfl, fun n => rfl, fun b => rfl, fun s => rfl, fun xs => rfl,
    rfl, ?_, ?_, rfl⟩
  · intro k hk
    simp only [insertOutput]
    split
    · rename_i v heq
      by_cases ht : truthyU v = true
      · rw [if_pos ht, fieldLookup_normalizeFields]
      · rw [if_neg ht, fieldLookup_fieldSet_ne _ _ _ _ hk,
          fieldLookup_normalizeFields]
    · rw [fieldLookup_fieldSet_ne _ _ _ _ hk, fieldLookup_normalizeFields]
  · rw [← fieldLookup_normalizeFields]
    simp only [insertOutput]
    cases hl : fieldLookup (normalizeFieldsU fs) "id".toList with
    | none => simp [fieldLookup_fieldSet_self]
    | some v =>
        by_cases ht : truthyU v = true
        · simp only [ht, if_true]
          exact hl
        · simp [ht, fieldLookup_fieldSet_self]

def c8NestedObj : UVal := .uobj [("inner".toList, .ustr "products:1".toList)]

/-- C8 counterexample: an insert whose `ref` field is a plain object
holding a nested record-id-like string is accepted, but the nested field
is returned untouched — `normalizeRecordIdLikeFields` is shallow — even
though `normalizeRecordIdLikeValue` would intern that nested string, so
not every nested record-id-like field is normalized as the claim
states. -/
theorem c8_counterexample :
    validateInsert "note".toList "x".toList
        (.uobj [("ref".toList, c8NestedObj),
                ("id".toList, .ustr "note:1".toList)]) =
      .ok [("ref".toList, c8NestedObj),
           ("id".toList, .uinterned "note:1".toList)] ∧
    normalizeU (.ustr "products:1".toList) ≠ .ustr "products:1".toList := by
  constructor
  · rfl
  · intro h
    rw [show normalizeU (.ustr "products:1".toList) =
      .uinterned "products:1".toList from rfl] at h
    exact UVal.noConfusion h

theorem c8_insert_schema_amended_witness :
    fieldLookup (insertOutput "note".toList "x".toList
        [("ref".toList, c8NestedObj)]) "ref".toList =
      (fieldLookup [("ref".toList, c8NestedObj)] "ref".toList).map
        normalizeU :=
  (c8_insert_schema_amended "note".toList "x".toList
      [("ref".toList, c8NestedObj)]).2.2.2.2.2.2.1 "ref".toList (by decide)

/-! ## C7 and C10: subset-to-SQL translation (`buildSubsetQuery` in the
table-access module) -/

/-- Modelled from the spec: JavaScript number-to-string rendering for the
parameter counter, written with explicit fuel so it evaluates by
reduction. -/
def digitChar (n : Nat) : Char := Char.ofNat (48 + n)

def natCharsAux : Nat → Nat → List Char
  | 0, _ => []
  | fuel + 1, n =>
      if n < 10 then [digitChar n]
      else natCharsAux fuel (n / 10) ++ [digitChar (n % 10)]

def natChars (n : Nat) : List Char := natCharsAux (n + 1) n

/-- The `$p{i}` parameter name allocated by `nextParam`. -/
def pName (i : Nat) : List Char := 'p' :: natChars i

structure TableOpts where
  name : List Char
  relation : Bool
deriving DecidableEq

inductive PathSeg where
  | fld (s : List Char)
  | idx (n : Nat)
deriving DecidableEq

abbrev FieldPath := List PathSeg

def backtickChar : Char := Char.ofNat 96

def isIdentHeadChar (c : Char) : Bool := c.isAlpha || c = '_'

def isIdentTailChar (c : Char) : Bool := c.isAlphanum || c = '_'

/-- `IDENTIFIER_RE` (`^[A-Za-z_][A-Za-z0-9_]*$`). -/
def isIdentifier : List Char → Bool
  | [] => false
  | c :: rest => isIdentHeadChar c && rest.all isIdentTailChar

def escapeBacktick (c : Char) : List Char :=
  if c = backtickChar then ['\\', backtickChar] else [c]

/-- `quoteIdentifier`: plain identifiers pass through, anything else is
backtick-quoted with backticks escaped. -/
def quoteIdentifier (seg : List Char) : List Char :=
  if isIdentifier seg then seg
  else backtickChar :: (seg.map escapeBacktick).flatten ++ [backtickChar]

/-- `formatFieldPath`: numeric segments render as `[n]`, string segments
are dot-joined quoted identifiers. -/
def formatFieldPath (path : FieldPath) : List Char :=
  path.foldl (fun out seg =>
    match seg with
    | .idx n => out ++ '[' :: (natChars n ++ [']'])
    | .fld s =>
        let next := quoteIdentifier s
        if out = [] then next else out ++ '.' :: next) []

/-- `mapRelationPath`: on relation tables the leading `from`/`to` segment
becomes `in`/`out`. -/
def mapRelationPath (path : FieldPath) (relation : Bool) : FieldPath :=
  if ¬relation then path
  else match path with
    | .fld s :: rest =>
        if s = "from".toList then .fld "in".toList :: rest
        else if s = "to".toList then .fld "out".toList :: rest
        else path
    | _ => path

def isStrOrNum : UVal → Bool
  | .ustr _ => true
  | .unum _ => true
  | _ => false

def headIsStr : List UVal → Bool
  | .ustr _ :: _ => true
  | _ => false

/-- `isReferencePathCandidate`: a non-empty array of strings and numbers
whose first element is a string — the shape of a reactive field
reference. -/
def isReferencePathCandidate : UVal → Bool
  | .uarr xs => !xs.isEmpty && headIsStr xs && xs.all isStrOrNum
  | _ => false

mutual
/-- `normalizeFilterValue`: arrays map recursively, everything else goes
through `normalizeRecordIdLikeValue`. -/
def normalizeFilterValue : UVal → UVal
  | .uarr xs => .uarr (normalizeFilterList xs)
  | v => normalizeU v

def normalizeFilterList : List UVal → List UVal
  | [] => []
  | x :: xs => normalizeFilterValue x :: normalizeFilterList xs
end

inductive CmpOp where
  | ceq
  | cne
  | cgt
  | cge
  | clt
  | cle
  | clike
deriving DecidableEq

def cmpOpSql : CmpOp → List Char
  | .ceq => "=".toList
  | .cne => "!=".toList
  | .cgt => ">".toList
  | .cge => ">=".toList
  | .clt => "<".toList
  | .cle => "<=".toList
  | .clike => "LIKE".toList

/-- The where-expression tree handed to the `parseWhereExpression`
handlers: logical connectives, the comparisons handled by `comparison`,
`ilike`, `in`, null/none tests, and an unknown operator (routed to
`onUnknownOperator`).  A value of `none` is JavaScript `undefined`. -/
inductive WExpr where
  | wand (args : List WExpr)
  | wor (args : List WExpr)
  | wnot (a : WExpr)
  | wcmp (op : CmpOp) (field : FieldPath) (v : Option UVal)
  | wilike (field : FieldPath) (v : Option UVal)
  | win (field : FieldPath) (v : Option UVal)
  | wisnull (field : FieldPath)
  | wisnone (field : FieldPath)
  | wunknown (opName : List Char)

/-- The translator state: the `paramIdx` counter and the parameter values
bound so far (in allocation order, named `p0`, `p1`, ...). -/
structure TransSt where
  n : Nat
  vals : List (Option UVal)

/-- `joinLogical`: `true`/`false` for an empty argument list, the single
fragment alone, otherwise parenthesized fragments joined by the
operator. -/
def joinLogical (isAnd : Bool) (parts : List (List Char)) : List Char :=
  match parts with
  | [] => if isAnd then "true".toList else "false".toList
  | [p] => p
  | _ =>
      sepJoin (if isAnd then " AND ".toList else " OR ".toList)
        (parts.map (fun p => '(' :: (p ++ [')'])))

mutual
/-- The where-expression translation of `buildSubsetQuery`
(`whereSqlFrom` with the `comparison` helper): errors model the
JavaScript exceptions thrown before any query is issued. -/
def transWhere (tbl : TableOpts) : WExpr → TransSt →
    Except (List Char) (List Char × TransSt)
  | .wand args, st =>
      match transArgs tbl args st with
      | .error e => .error e
      | .ok (parts, st') => .ok (joinLogical true parts, st')
  | .wor args, st =>
      match transArgs tbl args st with
      | .error e => .error e
      | .ok (parts, st') => .ok (joinLogical false parts, st')
  | .wnot a, st =>
      match transWhere tbl a st with
      | .error e => .error e
      | .ok (s, st') => .ok ("NOT (".toList ++ s ++ [')'], st')
  | .wcmp op f v, st =>
      let field := formatFieldPath (mapRelationPath f tbl.relation)
      (match v with
       | none =>
           if op = .ceq then .ok (field ++ " IS NONE".toList, st)
           else if op = .cne then .ok (field ++ " IS NOT NONE".toList, st)
           else .error ("Cannot compare field with undefined.".toList)
       | some u =>
           if isReferencePathCandidate u then
             .error
               ("Got a field reference on the right side of a where comparison. Pass a concrete value, not a reactive proxy/path.".toList)
           else
             .ok (field ++ ' ' :: (cmpOpSql op ++ ' ' :: '$' :: pName st.n),
               ⟨st.n + 1, st.vals ++ [some (normalizeFilterValue u)]⟩))
  | .wilike f v, st =>
      let field := formatFieldPath (mapRelationPath f tbl.relation)
      .ok ("string::lower(".toList ++ field ++
            ") LIKE string::lower($".toList ++ pName st.n ++ [')'],
        ⟨st.n + 1, st.vals ++ [v.map normalizeFilterValue]⟩)
  | .win f v, st =>
      let field := formatFieldPath (mapRelationPath f tbl.relation)
      (match v with
       | some (.uarr []) => .ok ("false".toList, st)
       | _ =>
           .ok (field ++ " IN $".toList ++ pName st.n,
             ⟨st.n + 1, st.vals ++ [v.map normalizeFilterValue]⟩))
  | .wisnull f, st =>
      .ok (formatFieldPath (mapRelationPath f tbl.relation) ++
        " IS NULL".toList, st)
  | .wisnone f, st =>
      .ok (formatFieldPath (mapRelationPath f tbl.relation) ++
        " IS NONE".toList, st)
  | .wunknown opName, st =>
      .error ("Unsupported where operator for SurrealQL translation: ".toList
        ++ opName)

def transArgs (tbl : TableOpts) : List WExpr → TransSt →
    Except (List Char) (List (List Char) × TransSt)
  | [], st => .ok ([], st)
  | e :: rest, st =>
      match transWhere tbl e st with
      | .error err => .error err
      | .ok (s, st') =>
          match transArgs tbl rest st' with
          | .error err => .error err
          | .ok (ss, st'') => .ok (s :: ss, st'')
end

/-- A subset descriptor: where expression, cursor where-from expression,
order-by clauses (field path and ascending flag), limit and offset. -/
structure SurrealSubset where
  whereE : Option WExpr
  cursorWhere : Option WExpr
  orderBy : List (FieldPath × Bool)
  limit : Option Int
  offset : Option Int

def dirSql : Bool → List Char
  | true => " ASC".toList
  | false => " DESC".toList

/-- The binding record: `\x7b table: name \x7d` plus the `p{i}` values in
allocation order. -/
def paramsOf (tblName : List Char) (vals : List (Option UVal)) :
    List (List Char × Option UVal) :=
  ("table".toList, some (.ustr tblName)) ::
    vals.enum.map (fun p => (pName p.1, p.2))

/-- One where-source of `buildSubsetQuery` (`subset?.where`, then
`subset?.cursor?.whereFrom`): translate when present, append the non-empty
fragment to the collected where parts. -/
def whereStage (tbl : TableOpts) (o : Option WExpr)
    (parts : List (List Char)) (st : TransSt) :
    Except (List Char) (List (List Char) × TransSt) :=
  match o with
  | none => .ok (parts, st)
  | some e =>
      match transWhere tbl e st with
      | .error err => .error err
      | .ok (s, st') => .ok (if s = [] then parts else parts ++ [s], st')

/-- The ` WHERE ...` clause from the collected parts, with the automatic
`sync_deleted = false` filter under sync-field mode. -/
def whereSqlOf (useLoro : Bool) (parts₂ : List (List Char)) : List Char :=
  let parts := if useLoro
    then parts₂ ++ ["sync_deleted = false".toList] else parts₂
  if parts = [] then [] else
    " WHERE ".toList ++
      sepJoin " AND ".toList (parts.map (fun p => '(' :: (p ++ [')'])))

/-- The ` ORDER BY ...` clause. -/
def orderSqlOf (tbl : TableOpts) (ob : List (FieldPath × Bool)) : List Char :=
  if ob = [] then [] else
    " ORDER BY ".toList ++ sepJoin ", ".toList (ob.map (fun c =>
      formatFieldPath (mapRelationPath c.1 tbl.relation) ++ dirSql c.2))

/-- ` LIMIT $pN` with its binding, when a limit is present. -/
def limitPart (st : TransSt) : Option Int → List Char × TransSt
  | some l => (" LIMIT $".toList ++ pName st.n,
      ⟨st.n + 1, st.vals ++ [some (UVal.unum l)]⟩)
  | none => ([], st)

/-- ` START $pN` with its binding, when an offset is present. -/
def startPart (st : TransSt) : Option Int → List Char × TransSt
  | some o => (" START $".toList ++ pName st.n,
      ⟨st.n + 1, st.vals ++ [some (UVal.unum o)]⟩)
  | none => ([], st)

/-- The tail of `buildSubsetQuery` after both where-sources have been
translated: assemble the statement and the binding record. -/
def finishQuery (tbl : TableOpts) (useLoro : Bool) (subset : SurrealSubset)
    (parts₂ : List (List Char)) (st₂ : TransSt) :
    List Char × List (List Char × Option UVal) :=
  let lp := limitPart st₂ subset.limit
  let sp := startPart lp.2 subset.offset
  ("SELECT * FROM type::table($table)".toList ++ whereSqlOf useLoro parts₂ ++
      orderSqlOf tbl subset.orderBy ++ lp.1 ++ sp.1 ++ [';'],
    paramsOf tbl.name sp.2.vals)

/-- `buildSubsetQuery` (lines 96-230 of the table-access module): where
parts from the subset and cursor, the automatic `sync_deleted = false`
filter under sync-field mode, order-by, and parameterized limit/offset. -/
def buildSubsetQuery (tbl : TableOpts) (useLoro : Bool)
    (subset : SurrealSubset) :
    Except (List Char) (List Char × List (List Char × Option UVal)) :=
  let st0 : TransSt := ⟨0, []⟩
  match whereStage tbl subset.whereE [] st0 with
  | .error err => .error err
  | .ok (parts₁, st₁) =>
      match whereStage tbl subset.cursorWhere parts₁ st₁ with
      | .error err => .error err
      | .ok (parts₂, st₂) => .ok (finishQuery tbl useLoro subset parts₂ st₂)

/-- `loadSubset` issues its query only from a successfully built plan;
a translation error reaches the caller before any query. -/
def queriesIssued
    (plan : Except (List Char) (List Char × List (List Char × Option UVal))) :
    List (List Char) :=
  match plan with
  | .error _ => []
  | .ok (sql, _) => [sql]

mutual
/-- A where-expression containing a node the translator rejects: a
comparison (`=`, `!=`, `>`, `>=`, `<`, `<=`, `LIKE`) whose right-hand side
is a reference-path candidate, or an operator without a handler. -/
def hasBadNode : WExpr → Bool
  | .wand args => hasBadList args
  | .wor args => hasBadList args
  | .wnot a => hasBadNode a
  | .wcmp _ _ v =>
      (match v with
       | some u => isReferencePathCandidate u
       | none => false)
  | .wunknown _ => true
  | _ => false

def hasBadList : List WExpr → Bool
  | [] => false
  | x :: xs => hasBadNode x || hasBadList xs
end

theorem transArgs_bad_aux (k : Nat)
    (ih : ∀ (e : WExpr) (tbl : TableOpts) (st : TransSt), sizeOf e < k →
      hasBadNode e = true → ∃ msg, transWhere tbl e st = .error msg) :
    ∀ (args : List WExpr) (tbl : TableOpts) (st : TransSt),
      (∀ a ∈ args, sizeOf a < k) → hasBadList args = true →
      ∃ msg, transArgs tbl args st = .error msg := by
  intro args
  induction args with
  | nil =>
      intro tbl st _ h
      simp [hasBadList] at h
  | cons x xs ihl =>
      intro tbl st hsz hbad
      rw [hasBadList] at hbad
      cases hx : transWhere tbl x st with
      | error err => exact ⟨err, by simp [transArgs, hx]⟩
      | ok pr =>
          rcases Bool.or_eq_true_iff.mp hbad with hb | hb
          · obtain ⟨msg, hmsg⟩ :=
              ih x tbl st (hsz x (List.mem_cons_self _ _)) hb
            rw [hmsg] at hx
            cases hx
          · obtain ⟨msg, hmsg⟩ := ihl tbl pr.2
              (fun a ha => hsz a (List.mem_cons_of_mem _ ha)) hb
            refine ⟨msg, ?_⟩
            rw [transArgs, hx]
            simp only [hmsg]

theorem transWhere_bad_aux :
    ∀ (k : Nat) (e : WExpr) (tbl : TableOpts) (st : TransSt),
      sizeOf e < k → hasBadNode e = true →
      ∃ msg, transWhere tbl e st = .error msg := by
  intro k
  induction k with
  | zero => intro e tbl st h; omega
  | succ k ih =>
      intro e tbl st hsz hbad
      match e with
      | .wand args =>
          simp only [hasBadNode] at hbad
          have hsizes : ∀ a ∈ args, sizeOf a < k := by
            intro a ha
            have h1 := List.sizeOf_lt_of_mem ha
            simp only [WExpr.wand.sizeOf_spec] at hsz
            omega
          obtain ⟨msg, hmsg⟩ := transArgs_bad_aux k ih args tbl st hsizes hbad
          exact ⟨msg, by rw [transWhere, hmsg]⟩
      | .wor args =>
          simp only [hasBadNode] at hbad
          have hsizes : ∀ a ∈ args, sizeOf a < k := by
            intro a ha
            have h1 := List.sizeOf_lt_of_mem ha
            simp only [WExpr.wor.sizeOf_spec] at hsz
            omega
          obtain ⟨msg, hmsg⟩ := transArgs_bad_aux k ih args tbl st hsizes hbad
          exact ⟨msg, by rw [transWhere, hmsg]⟩
      | .wnot a =>
          simp only [hasBadNode] at hbad
          have hlt : sizeOf a < k := by
            simp only [WExpr.wnot.sizeOf_spec] at hsz
            omega
          obtain ⟨msg, hmsg⟩ := ih a tbl st hlt hbad
          exact ⟨msg, by rw [transWhere, hmsg]⟩
      | .wcmp op f v =>
          cases v with
          | none => simp [hasBadNode] at hbad
          | some u =>
              have hbad' : isReferencePathCandidate u = true := by
                simpa [hasBadNode] using hbad
              exact ⟨"Got a field reference on the right side of a where comparison. Pass a concrete value, not a reactive proxy/path.".toList,
                by simp [transWhere, hbad']⟩
      | .wilike f v => simp [hasBadNode] at hbad
      | .win f v => simp [hasBadNode] at hbad
      | .wisnull f => simp [hasBadNode] at hbad
      | .wisnone f => simp [hasBadNode] at hbad
      | .wunknown opName =>
          exact ⟨"Unsupported where operator for SurrealQL translation: ".toList
            ++ opName, rfl⟩

/-- C7 (amended): a where-expression containing an unsupported operator,
or a reference-path right-hand side in one of the `comparison`-handled
operators (`=`, `!=`, `>`, `>=`, `<`, `<=`, `LIKE`), makes the translation
raise an error to the caller and no query is issued; the `ilike` and `in`
handlers, however, do not perform the reference check (see the
counterexample). -/
theorem c7_translation_errors (tbl : TableOpts) (useLoro : Bool)
    (subset : SurrealSubset) (e : WExpr)
    (hw : subset.whereE = some e)
    (hbad : hasBadNode e = true) :
    ∃ msg, buildSubsetQuery tbl useLoro subset = .error msg ∧
      queriesIssued (buildSubsetQuery tbl useLoro subset) = [] := by
  obtain ⟨msg, hmsg⟩ :=
    transWhere_bad_aux (sizeOf e + 1) e tbl ⟨0, []⟩ (by omega) hbad
  refine ⟨msg, ?_, ?_⟩
  · simp only [buildSubsetQuery, whereStage, hw, hmsg]
  · simp only [queriesIssued, buildSubsetQuery, whereStage, hw, hmsg]

def c7BadSubset : SurrealSubset :=
  ⟨some (.wand [.wcmp .ceq [.fld "owner".toList]
      (some (.uarr [.ustr "user".toList, .ustr "id".toList]))]),
    none, [], none, none⟩

theorem c7_translation_errors_witness :
    ∃ msg, buildSubsetQuery ⟨"task".toList, false⟩ false c7BadSubset =
        .error msg ∧
      queriesIssued (buildSubsetQuery ⟨"task".toList, false⟩ false
        c7BadSubset) = [] :=
  c7_translation_errors ⟨"task".toList, false⟩ false c7BadSubset
    (.wand [.wcmp .ceq [.fld "owner".toList]
      (some (.uarr [.ustr "user".toList, .ustr "id".toList]))]) rfl rfl

def c7IlikeSubset : SurrealSubset :=
  ⟨some (.wilike [.fld "title".toList]
      (some (.uarr [.ustr "name".toList]))), none, [], none, none⟩

/-- C7 counterexample: an `ilike` whose right-hand side is a reference
path (a non-empty array of strings, exactly the shape
`isReferencePathCandidate` rejects in `comparison`) is NOT rejected — the
translation succeeds, the reference array is bound as the `$p0` parameter
value, and a query is issued — so not every where-expression with a
reactive reference on the right-hand side of a comparison raises an
error. -/
theorem c7_counterexample :
    isReferencePathCandidate (.uarr [.ustr "name".toList]) = true ∧
    (∃ sql ps, buildSubsetQuery ⟨"task".toList, false⟩ false c7IlikeSubset =
      .ok (sql, ps)) ∧
    (queriesIssued (buildSubsetQuery ⟨"task".toList, false⟩ false
      c7IlikeSubset)).length = 1 := by
  refine ⟨rfl, ⟨_, _, rfl⟩, rfl⟩

/-! ### C10: parameterization of subset queries -/

/-- Decoding step for a decimal digit string. -/
def digitStep (a : Nat) (c : Char) : Nat := 10 * a + (c.toNat - 48)

/-- Decode a decimal digit string back to the number it renders. -/
def digitsVal (l : List Char) : Nat := l.foldl digitStep 0

theorem digitChar_toNat {n : Nat} (h : n < 10) :
    (digitChar n).toNat = 48 + n := by
  interval_cases n <;> decide

theorem natCharsAux_foldl :
    ∀ (fuel n : Nat), n < 10 ^ fuel → ∀ a,
      List.foldl digitStep a (natCharsAux fuel n) =
        a * 10 ^ (natCharsAux fuel n).length + n := by
  intro fuel
  induction fuel with
  | zero =>
      intro n h a
      have hn : n = 0 := by simpa using h
      subst hn
      simp [natCharsAux]
  | succ fuel ih =>
      intro n h a
      by_cases h10 : n < 10
      · simp [natCharsAux, h10, digitStep, digitChar_toNat h10]
        omega
      · rw [natCharsAux, if_neg h10, List.foldl_append]
        have hdiv : n / 10 < 10 ^ fuel := by
          rw [Nat.div_lt_iff_lt_mul (by omega)]
          calc n < 10 ^ (fuel + 1) := h
            _ = 10 ^ fuel * 10 := by rw [pow_succ]
        rw [ih (n / 10) hdiv a]
        have hmod : n % 10 < 10 := Nat.mod_lt _ (by omega)
        simp only [List.foldl_cons, List.foldl_nil, digitStep,
          digitChar_toNat hmod, List.length_append, List.length_singleton]
        have h48 : 48 + n % 10 - 48 = n % 10 := by omega
        rw [h48]
        have hdm : 10 * (n / 10) + n % 10 = n := Nat.div_add_mod n 10
        calc 10 * (a * 10 ^ (natCharsAux fuel (n / 10)).length + n / 10) + n % 10
            = a * 10 ^ (natCharsAux fuel (n / 10)).length * 10 +
                (10 * (n / 10) + n % 10) := by ring
          _ = a * 10 ^ ((natCharsAux fuel (n / 10)).length + 1) + n := by
              rw [hdm, pow_succ]; ring

theorem digitsVal_natChars (n : Nat) : digitsVal (natChars n) = n := by
  have hlt : n < 10 ^ (n + 1) := by
    calc n < 2 ^ n := Nat.lt_two_pow n
      _ ≤ 10 ^ n := Nat.pow_le_pow_left (by omega) n
      _ ≤ 10 ^ (n + 1) := Nat.pow_le_pow_right (by omega) (by omega)
  have := natCharsAux_foldl (n + 1) n hlt 0
  simpa [digitsVal, natChars] using this

theorem natChars_inj {m n : Nat} (h : natChars m = natChars n) : m = n := by
  have h2 := congrArg digitsVal h
  rwa [digitsVal_natChars, digitsVal_natChars] at h2

theorem pName_inj : Function.Injective pName := by
  intro m n h
  simp only [pName, List.cons.injEq, true_and] at h
  exact natChars_inj h

/-- The binding-record keys are `table` followed by `p0 ... p(k-1)` in
order. -/
theorem paramsOf_keys (tblName : List Char) (vals : List (Option UVal)) :
    (paramsOf tblName vals).map Prod.fst =
      "table".toList :: (List.range vals.length).map pName := by
  simp only [paramsOf, List.map_cons, List.map_map]
  congr 1
  calc List.map (Prod.fst ∘ fun p : Nat × Option UVal => (pName p.1, p.2))
        vals.enum
      = List.map (pName ∘ Prod.fst) vals.enum := rfl
    _ = List.map pName (List.map Prod.fst vals.enum) := by
        rw [List.map_map]
    _ = List.map pName (List.range vals.length) := by
        rw [List.enum_map_fst]

/-- The binding-record keys are pairwise distinct. -/
theorem paramsOf_keys_nodup (tblName : List Char)
    (vals : List (Option UVal)) :
    ((paramsOf tblName vals).map Prod.fst).Nodup := by
  rw [paramsOf_keys, List.nodup_cons]
  constructor
  · intro hmem
    rw [List.mem_map] at hmem
    obtain ⟨i, _, hi⟩ := hmem
    rw [pName, show "table".toList = 't' :: "able".toList from rfl] at hi
    injection hi with h1 _
    exact absurd h1 (by decide)
  · exact List.Nodup.map pName_inj (List.nodup_range _)

mutual
/-- The operator/field skeleton of a where-expression: every concrete
right-hand value is replaced by a fixed placeholder, so two expressions
have the same skeleton exactly when they differ only in the concrete
values bound as parameters. -/
def shapeOf : WExpr → WExpr
  | .wand args => .wand (shapeOfList args)
  | .wor args => .wor (shapeOfList args)
  | .wnot a => .wnot (shapeOf a)
  | .wcmp op f _ => .wcmp op f (some (.ustr []))
  | .wilike f _ => .wilike f (some (.ustr []))
  | .win f _ => .win f (some (.ustr []))
  | .wisnull f => .wisnull f
  | .wisnone f => .wisnone f
  | .wunknown o => .wunknown o

def shapeOfList : List WExpr → List WExpr
  | [] => []
  | x :: xs => shapeOf x :: shapeOfList xs
end

mutual
/-- Every bound value is well-formed for parameterization: comparison
values defined and not reference paths, `ilike` values defined, `in`
values non-empty arrays, no unknown operators. -/
def goodVals : WExpr → Bool
  | .wand args => goodValsList args
  | .wor args => goodValsList args
  | .wnot a => goodVals a
  | .wcmp _ _ v =>
      (match v with
       | some u => !isReferencePathCandidate u
       | none => false)
  | .wilike _ v => v.isSome
  | .win _ v =>
      (match v with
       | some (.uarr (_ :: _)) => true
       | _ => false)
  | .wisnull _ => true
  | .wisnone _ => true
  | .wunknown _ => false

def goodValsList : List WExpr → Bool
  | [] => true
  | x :: xs => goodVals x && goodValsList xs
end

theorem shape_inv_wand {l : List WExpr} {e : WExpr}
    (h : shapeOf e = .wand l) :
    ∃ args, e = .wand args ∧ shapeOfList args = l := by
  cases e <;> simp [shapeOf] at h <;> exact ⟨_, rfl, h⟩

theorem shape_inv_wor {l : List WExpr} {e : WExpr}
    (h : shapeOf e = .wor l) :
    ∃ args, e = .wor args ∧ shapeOfList args = l := by
  cases e <;> simp [shapeOf] at h <;> exact ⟨_, rfl, h⟩

theorem shape_inv_wnot {s : WExpr} {e : WExpr}
    (h : shapeOf e = .wnot s) :
    ∃ a, e = .wnot a ∧ shapeOf a = s := by
  cases e <;> simp [shapeOf] at h <;> exact ⟨_, rfl, h⟩

theorem shape_inv_wcmp {op : CmpOp} {f : FieldPath} {pv : Option UVal}
    {e : WExpr} (h : shapeOf e = .wcmp op f pv) :
    ∃ v, e = .wcmp op f v := by
  cases e <;> simp [shapeOf] at h
  exact ⟨_, by rw [h.1, h.2.1]⟩

theorem shape_inv_wilike {f : FieldPath} {pv : Option UVal}
    {e : WExpr} (h : shapeOf e = .wilike f pv) :
    ∃ v, e = .wilike f v := by
  cases e <;> simp [shapeOf] at h
  exact ⟨_, by rw [h.1]⟩

theorem shape_inv_win {f : FieldPath} {pv : Option UVal}
    {e : WExpr} (h : shapeOf e = .win f pv) :
    ∃ v, e = .win f v := by
  cases e <;> simp [shapeOf] at h
  exact ⟨_, by rw [h.1]⟩

theorem shape_inv_wisnull {f : FieldPath} {e : WExpr}
    (h : shapeOf e = .wisnull f) : e = .wisnull f := by
  cases e <;> simp [shapeOf] at h <;> rw [h]

theorem shape_inv_wisnone {f : FieldPath} {e : WExpr}
    (h : shapeOf e = .wisnone f) : e = .wisnone f := by
  cases e <;> simp [shapeOf] at h <;> rw [h]

theorem transArgs_shape_aux (k : Nat)
    (ih : ∀ (e₁ e₂ : WExpr) (tbl : TableOpts) (st₁ st₂ : TransSt),
      sizeOf e₁ < k → shapeOf e₁ = shapeOf e₂ →
      goodVals e₁ = true → goodVals e₂ = true → st₁.n = st₂.n →
      ∃ sql c vs₁ vs₂,
        transWhere tbl e₁ st₁ = .ok (sql, ⟨st₁.n + c, st₁.vals ++ vs₁⟩) ∧
        transWhere tbl e₂ st₂ = .ok (sql, ⟨st₂.n + c, st₂.vals ++ vs₂⟩) ∧
        vs₁.length = c ∧ vs₂.length = c) :
    ∀ (l₁ l₂ : List WExpr) (tbl : TableOpts) (st₁ st₂ : TransSt),
      (∀ a ∈ l₁, sizeOf a < k) → shapeOfList l₁ = shapeOfList l₂ →
      goodValsList l₁ = true → goodValsList l₂ = true → st₁.n = st₂.n →
      ∃ parts c vs₁ vs₂,
        transArgs tbl l₁ st₁ = .ok (parts, ⟨st₁.n + c, st₁.vals ++ vs₁⟩) ∧
        transArgs tbl l₂ st₂ = .ok (parts, ⟨st₂.n + c, st₂.vals ++ vs₂⟩) ∧
        vs₁.length = c ∧ vs₂.length = c := by
  intro l₁
  induction l₁ with
  | nil =>
      intro l₂ tbl st₁ st₂ _ hsh _ _ hn
      cases l₂ with
      | nil =>
          exact ⟨[], 0, [], [], by simp [transArgs],
            by simp [transArgs], rfl, rfl⟩
      | cons y ys => simp [shapeOfList] at hsh
  | cons x xs ihl =>
      intro l₂ tbl st₁ st₂ hsz hsh hg₁ hg₂ hn
      cases l₂ with
      | nil => simp [shapeOfList] at hsh
      | cons y ys =>
          simp only [shapeOfList, List.cons.injEq] at hsh
          simp only [goodValsList, Bool.and_eq_true] at hg₁ hg₂
          obtain ⟨s, c, vs₁, vs₂, h1, h2, hl1, hl2⟩ :=
            ih x y tbl st₁ st₂ (hsz x (List.mem_cons_self _ _)) hsh.1
              hg₁.1 hg₂.1 hn
          obtain ⟨parts, c', vs₁', vs₂', h1', h2', hl1', hl2'⟩ :=
            ihl ys tbl ⟨st₁.n + c, st₁.vals ++ vs₁⟩
              ⟨st₂.n + c, st₂.vals ++ vs₂⟩
              (fun a ha => hsz a (List.mem_cons_of_mem _ ha)) hsh.2
              hg₁.2 hg₂.2 (by simp [hn])
          refine ⟨s :: parts, c + c', vs₁ ++ vs₁', vs₂ ++ vs₂',
            ?_, ?_, ?_, ?_⟩
          · simp only [transArgs, h1, h1']
            simp [Nat.add_assoc, List.append_assoc]
          · simp only [transArgs, h2, h2']
            simp [Nat.add_assoc, List.append_assoc]
          · simp [hl1, hl1']
          · simp [hl2, hl2']

theorem trans_shape_aux :
    ∀ (k : Nat) (e₁ e₂ : WExpr) (tbl : TableOpts) (st₁ st₂ : TransSt),
      sizeOf e₁ < k → shapeOf e₁ = shapeOf e₂ →
      goodVals e₁ = true → goodVals e₂ = true → st₁.n = st₂.n →
      ∃ sql c vs₁ vs₂,
        transWhere tbl e₁ st₁ = .ok (sql, ⟨st₁.n + c, st₁.vals ++ vs₁⟩) ∧
        transWhere tbl e₂ st₂ = .ok (sql, ⟨st₂.n + c, st₂.vals ++ vs₂⟩) ∧
        vs₁.length = c ∧ vs₂.length = c := by
  intro k
  induction k with
  | zero => intro e₁ e₂ tbl st₁ st₂ h; omega
  | succ k ih =>
      intro e₁ e₂ tbl st₁ st₂ hsz hsh hg₁ hg₂ hn
      match e₁ with
      | .wand args₁ =>
          simp only [shapeOf] at hsh
          obtain ⟨args₂, rfl, hsh'⟩ := shape_inv_wand hsh.symm
          simp only [goodVals] at hg₁ hg₂
          have hsizes : ∀ a ∈ args₁, sizeOf a < k := by
            intro a ha
            have h1 := List.sizeOf_lt_of_mem ha
            simp only [WExpr.wand.sizeOf_spec] at hsz
            omega
          obtain ⟨parts, c, vs₁, vs₂, h1, h2, hl1, hl2⟩ :=
            transArgs_shape_aux k ih args₁ args₂ tbl st₁ st₂ hsizes
              hsh'.symm hg₁ hg₂ hn
          exact ⟨joinLogical true parts, c, vs₁, vs₂,
            by simp only [transWhere, h1], by simp only [transWhere, h2],
            hl1, hl2⟩
      | .wor args₁ =>
          simp only [shapeOf] at hsh
          obtain ⟨args₂, rfl, hsh'⟩ := shape_inv_wor hsh.symm
          simp only [goodVals] at hg₁ hg₂
          have hsizes : ∀ a ∈ args₁, sizeOf a < k := by
            intro a ha
            have h1 := List.sizeOf_lt_of_mem ha
            simp only [WExpr.wor.sizeOf_spec] at hsz
            omega
          obtain ⟨parts, c, vs₁, vs₂, h1, h2, hl1, hl2⟩ :=
            transArgs_shape_aux k ih args₁ args₂ tbl st₁ st₂ hsizes
              hsh'.symm hg₁ hg₂ hn
          exact ⟨joinLogical false parts, c, vs₁, vs₂,
            by simp only [transWhere, h1], by simp only [transWhere, h2],
            hl1, hl2⟩
      | .wnot a =>
          simp only [shapeOf] at hsh
          obtain ⟨a₂, rfl, hsh'⟩ := shape_inv_wnot hsh.symm
          simp only [goodVals] at hg₁ hg₂
          have hlt : sizeOf a < k := by
            simp only [WExpr.wnot.sizeOf_spec] at hsz
            omega
          obtain ⟨s, c, vs₁, vs₂, h1, h2, hl1, hl2⟩ :=
            ih a a₂ tbl st₁ st₂ hlt hsh'.symm hg₁ hg₂ hn
          exact ⟨"NOT (".toList ++ s ++ [')'], c, vs₁, vs₂,
            by simp only [transWhere, h1], by simp only [transWhere, h2],
            hl1, hl2⟩
      | .wcmp op f v =>
          simp only [shapeOf] at hsh
          obtain ⟨v₂, rfl⟩ := shape_inv_wcmp hsh.symm
          cases v with
          | none => simp [goodVals] at hg₁
          | some u =>
              cases v₂ with
              | none => simp [goodVals] at hg₂
              | some u₂ =>
                  have hr₁ : isReferencePathCandidate u = false := by
                    simpa [goodVals] using hg₁
                  have hr₂ : isReferencePathCandidate u₂ = false := by
                    simpa [goodVals] using hg₂
                  refine ⟨formatFieldPath (mapRelationPath f tbl.relation) ++
                      ' ' :: (cmpOpSql op ++ ' ' :: '$' :: pName st₁.n),
                    1, [some (normalizeFilterValue u)],
                    [some (normalizeFilterValue u₂)], ?_, ?_, rfl, rfl⟩
                  · simp [transWhere, hr₁]
                  · simp [transWhere, hr₂, ← hn]
      | .wilike f v =>
          simp only [shapeOf] at hsh
          obtain ⟨v₂, rfl⟩ := shape_inv_wilike hsh.symm
          refine ⟨"string::lower(".toList ++
              formatFieldPath (mapRelationPath f tbl.relation) ++
              ") LIKE string::lower($".toList ++ pName st₁.n ++ [')'],
            1, [v.map normalizeFilterValue], [v₂.map normalizeFilterValue],
            ?_, ?_, rfl, rfl⟩
          · simp [transWhere]
          · simp [transWhere, ← hn]
      | .win f v =>
          simp only [shapeOf] at hsh
          obtain ⟨v₂, rfl⟩ := shape_inv_win hsh.symm
          rcases v with _ | u
          · simp [goodVals] at hg₁
          rcases u with _ | b | m | s | xs | fs | ⟨t, kk⟩ | ⟨t, iv⟩ | cc <;>
            simp [goodVals] at hg₁
          rcases xs with _ | ⟨a, l⟩
          · simp [goodVals] at hg₁
          rcases v₂ with _ | u₂
          · simp [goodVals] at hg₂
          rcases u₂ with _ | b₂ | m₂ | s₂ | xs₂ | fs₂ | ⟨t₂, kk₂⟩ |
            ⟨t₂, iv₂⟩ | cc₂ <;> simp [goodVals] at hg₂
          rcases xs₂ with _ | ⟨a₂, l₂⟩
          · simp [goodVals] at hg₂
          refine ⟨formatFieldPath (mapRelationPath f tbl.relation) ++
              " IN $".toList ++ pName st₁.n, 1,
            [some (normalizeFilterValue (.uarr (a :: l)))],
            [some (normalizeFilterValue (.uarr (a₂ :: l₂)))],
            ?_, ?_, rfl, rfl⟩
          · simp [transWhere]
          · simp [transWhere, ← hn]
      | .wisnull f =>
          simp only [shapeOf] at hsh
          obtain rfl := shape_inv_wisnull hsh.symm
          exact ⟨formatFieldPath (mapRelationPath f tbl.relation) ++
              " IS NULL".toList, 0, [], [],
            by simp [transWhere], by simp [transWhere], rfl, rfl⟩
      | .wisnone f =>
          simp only [shapeOf] at hsh
          obtain rfl := shape_inv_wisnone hsh.symm
          exact ⟨formatFieldPath (mapRelationPath f tbl.relation) ++
              " IS NONE".toList, 0, [], [],
            by simp [transWhere], by simp [transWhere], rfl, rfl⟩
      | .wunknown o => simp [goodVals] at hg₁

def optGood : Option WExpr → Bool
  | some e => goodVals e
  | none => true

/-- Two optional where-expressions with the same skeleton. -/
def OptShapeEq : Option WExpr → Option WExpr → Prop
  | some e₁, some e₂ => shapeOf e₁ = shapeOf e₂
  | none, none => True
  | _, _ => False

theorem whereStage_pair (tbl : TableOpts) (o₁ o₂ : Option WExpr)
    (hsh : OptShapeEq o₁ o₂) (hg₁ : optGood o₁ = true)
    (hg₂ : optGood o₂ = true) (parts : List (List Char)) (n : Nat)
    (v₁ v₂ : List (Option UVal)) :
    ∃ newParts c vs₁ vs₂,
      whereStage tbl o₁ parts ⟨n, v₁⟩ = .ok (newParts, ⟨n + c, v₁ ++ vs₁⟩) ∧
      whereStage tbl o₂ parts ⟨n, v₂⟩ = .ok (newParts, ⟨n + c, v₂ ++ vs₂⟩) ∧
      vs₁.length = c ∧ vs₂.length = c := by
  cases o₁ with
  | none =>
      cases o₂ with
      | none =>
          exact ⟨parts, 0, [], [], by simp [whereStage],
            by simp [whereStage], rfl, rfl⟩
      | some e₂ => exact False.elim hsh
  | some e₁ =>
      cases o₂ with
      | none => exact False.elim hsh
      | some e₂ =>
          obtain ⟨s, c, vs₁, vs₂, h1, h2, hl1, hl2⟩ :=
            trans_shape_aux (sizeOf e₁ + 1) e₁ e₂ tbl ⟨n, v₁⟩ ⟨n, v₂⟩
              (by omega) hsh (by simpa [optGood] using hg₁)
              (by simpa [optGood] using hg₂) rfl
          exact ⟨if s = [] then parts else parts ++ [s], c, vs₁, vs₂,
            by simp only [whereStage, h1], by simp only [whereStage, h2],
            hl1, hl2⟩

theorem finishQuery_pair (tbl : TableOpts) (useLoro : Bool)
    (s₁ s₂ : SurrealSubset) (parts : List (List Char)) (n : Nat)
    (v₁ v₂ : List (Option UVal))
    (hord : s₁.orderBy = s₂.orderBy)
    (hlim : s₁.limit.isSome = s₂.limit.isSome)
    (hoff : s₁.offset.isSome = s₂.offset.isSome) :
    ∃ sql c ws₁ ws₂,
      finishQuery tbl useLoro s₁ parts ⟨n, v₁⟩ =
        (sql, paramsOf tbl.name (v₁ ++ ws₁)) ∧
      finishQuery tbl useLoro s₂ parts ⟨n, v₂⟩ =
        (sql, paramsOf tbl.name (v₂ ++ ws₂)) ∧
      ws₁.length = c ∧ ws₂.length = c := by
  cases hL₁ : s₁.limit with
  | none =>
      cases hL₂ : s₂.limit with
      | some l₂ => rw [hL₁, hL₂] at hlim; simp at hlim
      | none =>
          cases hO₁ : s₁.offset with
          | none =>
              cases hO₂ : s₂.offset with
              | some o₂ => rw [hO₁, hO₂] at hoff; simp at hoff
              | none =>
                  refine ⟨"SELECT * FROM type::table($table)".toList ++
                      whereSqlOf useLoro parts ++
                      orderSqlOf tbl s₁.orderBy ++ [';'],
                    0, [], [], ?_, ?_, rfl, rfl⟩
                  · simp [finishQuery, limitPart, startPart, hL₁, hO₁]
                  · simp [finishQuery, limitPart, startPart, hL₂, hO₂,
                      ← hord]
          | some o₁ =>
              cases hO₂ : s₂.offset with
              | none => rw [hO₁, hO₂] at hoff; simp at hoff
              | some o₂ =>
                  refine ⟨"SELECT * FROM type::table($table)".toList ++
                      whereSqlOf useLoro parts ++
                      orderSqlOf tbl s₁.orderBy ++
                      (" START $".toList ++ pName n) ++ [';'],
                    1, [some (UVal.unum o₁)], [some (UVal.unum o₂)],
                    ?_, ?_, rfl, rfl⟩
                  · simp [finishQuery, limitPart, startPart, hL₁, hO₁]
                  · simp [finishQuery, limitPart, startPart, hL₂, hO₂,
                      ← hord]
  | some l₁ =>
      cases hL₂ : s₂.limit with
      | none => rw [hL₁, hL₂] at hlim; simp at hlim
      | some l₂ =>
          cases hO₁ : s₁.offset with
          | none =>
              cases hO₂ : s₂.offset with
              | some o₂ => rw [hO₁, hO₂] at hoff; simp at hoff
              | none =>
                  refine ⟨"SELECT * FROM type::table($table)".toList ++
                      whereSqlOf useLoro parts ++
                      orderSqlOf tbl s₁.orderBy ++
                      (" LIMIT $".toList ++ pName n) ++ [';'],
                    1, [some (UVal.unum l₁)], [some (UVal.unum l₂)],
                    ?_, ?_, rfl, rfl⟩
                  · simp [finishQuery, limitPart, startPart, hL₁, hO₁]
                  · simp [finishQuery, limitPart, startPart, hL₂, hO₂,
                      ← hord]
          | some o₁ =>
              cases hO₂ : s₂.offset with
              | none => rw [hO₁, hO₂] at hoff; simp at hoff
              | some o₂ =>
                  refine ⟨"SELECT * FROM type::table($table)".toList ++
                      whereSqlOf useLoro parts ++
                      orderSqlOf tbl s₁.orderBy ++
                      (" LIMIT $".toList ++ pName n) ++
                      (" START $".toList ++ pName (n + 1)) ++ [';'],
                    2, [some (UVal.unum l₁), some (UVal.unum o₁)],
                    [some (UVal.unum l₂), some (UVal.unum o₂)],
                    ?_, ?_, rfl, rfl⟩
                  · simp [finishQuery, limitPart, startPart, hL₁, hO₁]
                  · simp [finishQuery, limitPart, startPart, hL₂, hO₂,
                      ← hord]

/-- Both where-sources of a subset descriptor carry only well-formed
values. -/
def goodSubset (s : SurrealSubset) : Bool :=
  optGood s.whereE && optGood s.cursorWhere

/-- Two subset descriptors with the same operator/field structure: equal
where and cursor skeletons, equal order-by lists, and limit/offset present
in one iff present in the other. -/
def SameShape (s₁ s₂ : SurrealSubset) : Prop :=
  OptShapeEq s₁.whereE s₂.whereE ∧
  OptShapeEq s₁.cursorWhere s₂.cursorWhere ∧
  s₁.orderBy = s₂.orderBy ∧ s₁.limit.isSome = s₂.limit.isSome ∧
  s₁.offset.isSome = s₂.offset.isSome

/-- C10: subset-to-SQL translation never interpolates concrete right-hand
values into the SQL text — two subset descriptors with the same
operator/field structure (all comparison values defined and not reference
paths, `in` lists non-empty arrays) that differ only in their concrete
values produce character-identical SQL from `buildSubsetQuery`; the values
appear only in the returned bindings record, whose keys are exactly
`table` followed by the fresh parameter names `p0, p1, ...`, all pairwise
distinct. -/
theorem c10_parameterized_sql (tbl : TableOpts) (useLoro : Bool)
    (s₁ s₂ : SurrealSubset) (hsh : SameShape s₁ s₂)
    (hg₁ : goodSubset s₁ = true) (hg₂ : goodSubset s₂ = true) :
    ∃ sql k vals₁ vals₂,
      buildSubsetQuery tbl useLoro s₁ = .ok (sql, paramsOf tbl.name vals₁) ∧
      buildSubsetQuery tbl useLoro s₂ = .ok (sql, paramsOf tbl.name vals₂) ∧
      vals₁.length = k ∧ vals₂.length = k ∧
      (paramsOf tbl.name vals₁).map Prod.fst =
        "table".toList :: (List.range k).map pName ∧
      (paramsOf tbl.name vals₂).map Prod.fst =
        "table".toList :: (List.range k).map pName ∧
      ((paramsOf tbl.name vals₁).map Prod.fst).Nodup := by
  obtain ⟨hshw, hshc, hord, hlim, hoff⟩ := hsh
  rw [goodSubset, Bool.and_eq_true] at hg₁ hg₂
  obtain ⟨p₁, c₁, vs₁, vs₂, hw1, hw2, hl1, hl2⟩ :=
    whereStage_pair tbl s₁.whereE s₂.whereE hshw hg₁.1 hg₂.1 [] 0 [] []
  obtain ⟨p₂, c₂, us₁, us₂, hc1, hc2, hk1, hk2⟩ :=
    whereStage_pair tbl s₁.cursorWhere s₂.cursorWhere hshc hg₁.2 hg₂.2 p₁
      (0 + c₁) ([] ++ vs₁) ([] ++ vs₂)
  obtain ⟨sqlT, cT, ws₁, ws₂, hf1, hf2, hm1, hm2⟩ :=
    finishQuery_pair tbl useLoro s₁ s₂ p₂ (0 + c₁ + c₂)
      (([] ++ vs₁) ++ us₁) (([] ++ vs₂) ++ us₂) hord hlim hoff
  have hlen : (([] ++ vs₂) ++ us₂ ++ ws₂).length =
      (([] ++ vs₁) ++ us₁ ++ ws₁).length := by
    simp [hl1, hl2, hk1, hk2, hm1, hm2]
  refine ⟨sqlT, (([] ++ vs₁) ++ us₁ ++ ws₁).length,
    ([] ++ vs₁) ++ us₁ ++ ws₁, ([] ++ vs₂) ++ us₂ ++ ws₂, ?_, ?_, rfl, hlen,
    by rw [paramsOf_keys], by rw [paramsOf_keys, hlen],
    paramsOf_keys_nodup _ _⟩
  · simp only [buildSubsetQuery, hw1, hc1, hf1]
  · simp only [buildSubsetQuery, hw2, hc2, hf2]

def c10Subset1 : SurrealSubset :=
  ⟨some (.wand [.wcmp .ceq [.fld "title".toList]
        (some (.ustr "alpha".toList)),
      .win [.fld "tag".toList] (some (.uarr [.ustr "x".toList]))]),
    none, [([.fld "title".toList], true)], some 10, some 0⟩

def c10Subset2 : SurrealSubset :=
  ⟨some (.wand [.wcmp .ceq [.fld "title".toList]
        (some (.ustr "beta".toList)),
      .win [.fld "tag".toList]
        (some (.uarr [.ustr "y".toList, .ustr "z".toList]))]),
    none, [([.fld "title".toList], true)], some 25, some 5⟩

theorem c10_parameterized_sql_witness :
    SameShape c10Subset1 c10Subset2 ∧
    goodSubset c10Subset1 = true ∧ goodSubset c10Subset2 = true ∧
    (∃ sql k vals₁ vals₂,
      buildSubsetQuery ⟨"task".toList, false⟩ false c10Subset1 =
        .ok (sql, paramsOf "task".toList vals₁) ∧
      buildSubsetQuery ⟨"task".toList, false⟩ false c10Subset2 =
        .ok (sql, paramsOf "task".toList vals₂) ∧
      vals₁.length = k ∧ vals₂.length = k ∧
      (paramsOf "task".toList vals₁).map Prod.fst =
        "table".toList :: (List.range k).map pName ∧
      (paramsOf "task".toList vals₂).map Prod.fst =
        "table".toList :: (List.range k).map pName ∧
      ((paramsOf "task".toList vals₁).map Prod.fst).Nodup) :=
  ⟨⟨rfl, True.intro, rfl, rfl, rfl⟩, rfl, rfl,
    c10_parameterized_sql ⟨"task".toList, false⟩ false c10Subset1 c10Subset2
      ⟨rfl, True.intro, rfl, rfl, rfl⟩ rfl rfl⟩

end TDB
